import Mathlib

/-!
csvTranspose: a shallow embedding of `Transpose/transpose.cpp`.

The program reads a comma separated file line by line, splits every line into
fields (`Split`), strips dates from the first field (`regex_replace` with
`dateRegEx`), accumulates the lines of one block in a `std::map` and prints the
block transposed (`printColumns`) whenever a row key repeats.

* a `std::string` is the list of its characters (`Str`);
* `string::npos` is `none`;
* `int` values are `Int`, the narrowing cast `(int)fields.size()` is `castInt`;
* `std::map<string, Split>` is an association list with unique keys (`Table`);
* `cout` is the text written so far (`State.out`);
* `fields[0]` on an empty vector has no defined behaviour: `processLine`
  returns `none` there.
-/

namespace Transpose

/-- A `std::string`, as the list of its characters. -/
abbrev Str := List Char

/-- The value of `numeric_limits<int>::max()` for a 32 bit `int`. -/
def intMax : Int := 2147483647

/-! ## `class Split` (transpose.cpp, lines 51-75) -/

/-- Index of the first character satisfying `p`, counted from `i`. -/
def findFrom (p : Char → Bool) : List Char → Nat → Option Nat
  | [], _ => none
  | c :: cs, i => if p c then some i else findFrom p cs (i + 1)

/-- The call `str.find_first_of(delimList, start)`; `none` is `string::npos`. -/
def findFirstOf (str : Str) (delimList : List Char) (start : Nat) : Option Nat :=
  findFrom (fun c => delimList.contains c) (str.drop start) start

/-- The call `str.substr(pos, count)` for `pos ≤ str.length()`; the count `none` stands for a
count computed from `string::npos`, which exceeds every length. -/
def substr (str : Str) (pos : Nat) (count : Option Nat) : Str :=
  match count with
  | some n => (str.drop pos).take n
  | none => str.drop pos

/-- The local variables of the constructor `Split::Split` together with the vector built so far. -/
structure SplitVars where
  /-- The variable `lastPos`. -/
  lastPos : Nat
  /-- The variable `pos`, `none` for `string::npos`. -/
  pos : Option Nat
  /-- The parameter `maxSplit`, decremented by the loop condition. -/
  maxSplit : Int
  /-- The elements pushed so far. -/
  vec : List Str

/-- The `while (pos != string::npos && --maxSplit > 0)` loop of `Split::Split`. The condition
short-circuits, so `maxSplit` is decremented only when `pos` is a position. Every iteration moves
`lastPos` past one more character, so `str.length + 1` rounds of fuel are never used up
(`splitWhile_eq`). -/
def splitWhile (str : Str) (delimList : List Char) (keepEmpty : Bool) : Nat → SplitVars → SplitVars
  | 0, v => v
  | fuel + 1, v =>
    match v.pos with
    | none => v
    | some pos =>
      if v.maxSplit - 1 > 0 then
        splitWhile str delimList keepEmpty fuel
          ⟨pos + 1, findFirstOf str delimList (pos + 1), v.maxSplit - 1,
            if keepEmpty || pos != v.lastPos then
              v.vec ++ [substr str v.lastPos (some (pos - v.lastPos))]
            else v.vec⟩
      else ⟨v.lastPos, v.pos, v.maxSplit - 1, v.vec⟩

/-- The constructor `Split(str, delimList, keepEmpty, maxSplit)`: the resulting vector. The loop
decrements `maxSplit` from the value passed down to 0 at most, or once below a value that is not
positive, so the `int` never wraps for a value above `INT_MIN`. -/
def Split (str : Str) (delimList : List Char) (keepEmpty : Bool) (maxSplit : Int) : List Str :=
  let v := splitWhile str delimList keepEmpty (str.length + 1)
    ⟨0, findFirstOf str delimList 0, maxSplit, []⟩
  if v.lastPos < str.length then
    v.vec ++ [substr str v.lastPos
      (if v.maxSplit = 0 then some str.length else v.pos.map (fun p => p - v.lastPos))]
  else v.vec

/-- The call `Split fields(line, ",")` of `main`: the defaults are `keepEmpty = true` and
`maxSplit = numeric_limits<int>::max()`. -/
def splitLine (line : Str) : List Str := Split line [','] true intMax

/-! ## The key normaliser: `regex_replace(fields[0], dateRegEx, "")` (lines 97 and 130) -/

/-- The pieces of the regular expression `[0-9]+/[0-9]+/[0-9]+`. -/
inductive Atom where
  /-- The piece `[0-9]+`: one or more digits, greedy. -/
  | digits : Atom
  /-- A literal character. -/
  | lit : Char → Atom
  deriving DecidableEq, Repr

/-- The character class `[0-9]`. -/
def isDigit (c : Char) : Bool := decide (48 ≤ c.toNat) && decide (c.toNat ≤ 57)

/-- The greedy quantifier of a backtracking matcher: the repetition counts `k + 1, k, ..., 1` are
tried in this order, and the first one after which the rest of the pattern (`cont`) matches wins.
The result is the number of characters matched. -/
def tryCounts (cont : Str → Option Nat) (s : Str) : Nat → Option Nat
  | 0 => none
  | k + 1 =>
    match cont (s.drop (k + 1)) with
    | some n => some (k + 1 + n)
    | none => tryCounts cont s k

/-- An ECMAScript style backtracking match of a sequence of atoms anchored at the start of `s`:
the length of the match that is found first, if there is one. -/
def matchAtoms : List Atom → Str → Option Nat
  | [], _ => some 0
  | Atom.lit c :: rest, s =>
    match s with
    | [] => none
    | x :: xs => if x = c then (matchAtoms rest xs).map (fun n => n + 1) else none
  | Atom.digits :: rest, s => tryCounts (matchAtoms rest) s (s.takeWhile isDigit).length

/-- The pattern of `regex dateRegEx("[0-9]+/[0-9]+/[0-9]+")`. -/
def dateRegEx : List Atom :=
  [Atom.digits, Atom.lit '/', Atom.digits, Atom.lit '/', Atom.digits]

/-- The scan of `regex_replace(s, re, "")`: `skip` characters of a match found earlier are still
to be dropped; otherwise a match is searched at the current position, and when there is none the
character is copied and the search moves one position on. -/
def replaceScan (re : List Atom) : Nat → Str → Str
  | _, [] => []
  | skip + 1, _ :: cs => replaceScan re skip cs
  | 0, c :: cs =>
    match matchAtoms re (c :: cs) with
    | some n => replaceScan re (n - 1) cs
    | none => c :: replaceScan re 0 cs

/-- The call `regex_replace(s, dateRegEx, "")`: every leftmost match is deleted. -/
def normalize (s : Str) : Str := replaceScan dateRegEx 0 s

/-! ## The helpers `contains` and `containsKey`, and `std::map<string, Split>` -/

/-- The table `map<string, Split>`: an association list, each key at most once. -/
abbrev Table := List (Str × List Str)

/-- The call `mapData.find(findStr)`, `none` for `end()`. -/
def Table.find (t : Table) (key : Str) : Option (List Str) :=
  match t with
  | [] => none
  | (k, v) :: rest => if k = key then some v else Table.find rest key

/-- The helper `contains(vec, findStr)`. -/
def contains (vec : List Str) (findStr : Str) : Bool := decide (findStr ∈ vec)

/-- The helper `containsKey(mapData, findStr)`. -/
def containsKey (mapData : Table) (findStr : Str) : Bool := (mapData.find findStr).isSome

/-- The call `table.insert(pair(key, value))`: nothing changes when the key is present. -/
def Table.insert (t : Table) (key : Str) (value : List Str) : Table :=
  if containsKey t key then t else t ++ [(key, value)]

/-- The expression `data[key]`: the value found, and the map, which gets an empty vector for a
key that was absent. -/
def Table.index (t : Table) (key : Str) : List Str × Table :=
  match t.find key with
  | some v => (v, t)
  | none => ([], t ++ [(key, [])])

/-! ## `printColumns` (lines 168-180) -/

/-- One pass of the inner loop `for (const auto& colHeader : headers)` for the row `row`, starting
from the text `out` and the map `data`. -/
def printRow (row : Nat) : List Str → Table → Str → Str × Table
  | [], data, out => (out, data)
  | colHeader :: rest, data, out =>
    let colData := data.index colHeader
    if row < colData.1.length then
      printRow row rest colData.2 (out ++ colData.1.getD row [] ++ ", ".toList)
    else
      printRow row rest colData.2 (out ++ ", ".toList)

/-- The outer loop of `printColumns` over the rows still to print. -/
def printRows (headers : List Str) : List Nat → Table → Str → Str × Table
  | [], data, out => (out, data)
  | row :: rows, data, out =>
    let r := printRow row headers data out
    printRows headers rows r.2 (r.1 ++ "\n".toList)

/-- The function `printColumns(headers, data, colCnt)`: the text appended to `cout` and the map
afterwards; `row` takes the values `1, 2, ..., colCnt - 1`. -/
def printColumns (headers : List Str) (data : Table) (colCnt : Int) : Str × Table :=
  printRows headers (List.range' 1 (colCnt - 1).toNat) data []

/-! ## `main` (lines 91-166) -/

/-- The loop `for (auto& col : colHeadings) cout << col << ","` followed by `cout << "\n"`. -/
def headingLine (colHeadings : List Str) : Str :=
  (colHeadings.map (fun col => col ++ ",".toList)).flatten ++ "\n".toList

/-- The narrowing conversion `(int)n` of a `size_t` to a 32 bit `int`. -/
def castInt (n : Nat) : Int :=
  if n % 4294967296 < 2147483648 then (n % 4294967296 : Nat) else (n % 4294967296 : Nat) - 4294967296

/-- The variables of `main` that live across loop iterations, and the text written to `cout`. -/
structure State where
  /-- The variable `table`. -/
  table : Table
  /-- The variable `colHeadings`. -/
  colHeadings : List Str
  /-- The variable `printColHeaders`. -/
  printColHeaders : Bool
  /-- The variable `colCnt`. -/
  colCnt : Int
  /-- Everything written to `cout` so far. -/
  out : Str

/-- The state before the first line is read. -/
def State.init : State := ⟨[], [], true, 0, []⟩

/-- The key `rowKey` computed for a line; `none` when `fields[0]` does not exist. -/
def rowKeyOf (line : Str) : Option Str :=
  match splitLine line with
  | [] => none
  | field0 :: _ => some (normalize field0)

/-- The body of `if (containsKey(table, rowKey))`: the headings once, the transposed block, and the
table cleared. -/
def flush (st : State) : State :=
  let out1 := if st.printColHeaders then st.out ++ headingLine st.colHeadings else st.out
  ⟨[], st.colHeadings, false, st.colCnt, out1 ++ (printColumns st.colHeadings st.table st.colCnt).1⟩

/-- One iteration of `while (getline(in, line))`. -/
def processLine (st : State) (line : Str) : Option State :=
  let fields := splitLine line
  match fields with
  | [] => none
  | field0 :: _ =>
    let rowKey := normalize field0
    let colHeadings :=
      if fields.length > 1 then
        if !contains st.colHeadings rowKey then st.colHeadings ++ [rowKey] else st.colHeadings
      else st.colHeadings
    let st1 : State := ⟨st.table, colHeadings, st.printColHeaders, st.colCnt, st.out⟩
    let st2 := if containsKey st1.table rowKey then flush st1 else st1
    some ⟨st2.table.insert rowKey fields, st2.colHeadings, st2.printColHeaders,
      max (castInt fields.length) st2.colCnt, st2.out⟩

/-- The whole `while` loop over the lines of the file, from a given state. -/
def processLines : State → List Str → Option State
  | st, [] => some st
  | st, line :: rest =>
    match processLine st line with
    | none => none
    | some st1 => processLines st1 rest

/-- The statements after the loop: the last block and the headings once more. -/
def finish (st : State) : State :=
  let r := printColumns st.colHeadings st.table st.colCnt
  ⟨r.2, st.colHeadings, st.printColHeaders, st.colCnt, st.out ++ r.1 ++ headingLine st.colHeadings⟩

/-- The run of `main` on a readable file with the given lines: the final state, whose `out` is
the text written to `cout`. -/
def run (lines : List Str) : Option State :=
  (processLines State.init lines).map finish


/-! ## Auxiliary definitions used in the proofs -/

/-- The result of `Split` read off the characters: `seg` is the field being collected, `n` the
current value of `maxSplit`. -/
def splitFrom (delimList : List Char) (keepEmpty : Bool) : Int → Str → Str → List Str
  | _, seg, [] => if seg = [] then [] else [seg]
  | n, seg, c :: cs =>
    if delimList.contains c then
      if n - 1 > 0 then
        (if keepEmpty || decide (seg ≠ []) then [seg] else []) ++
          splitFrom delimList keepEmpty (n - 1) [] cs
      else if n - 1 = 0 then [seg ++ c :: cs] else [seg]
    else splitFrom delimList keepEmpty n (seg ++ [c]) cs

/-- The value of `Split` once the loop has stopped in the state `v`. -/
def splitResult (str : Str) (v : SplitVars) : List Str :=
  if v.lastPos < str.length then
    v.vec ++ [substr str v.lastPos
      (if v.maxSplit = 0 then some str.length else v.pos.map (fun p => p - v.lastPos))]
  else v.vec

/-- Whether the text starts with a digit. -/
def headDigit : Str → Bool
  | [] => false
  | c :: _ => isDigit c

/-- A left to right recogniser for a text that starts with a date: state 0 expects the first digit,
1 is inside the first number, 2 expects the first digit of the second number, 3 is inside the
second number, 4 expects the first digit of the third number. -/
def acc : Nat → Str → Bool
  | _, [] => false
  | 0, c :: cs => isDigit c && acc 1 cs
  | 1, c :: cs => if isDigit c then acc 1 cs else decide (c = '/') && acc 2 cs
  | 2, c :: cs => isDigit c && acc 3 cs
  | 3, c :: cs => if isDigit c then acc 3 cs else decide (c = '/') && acc 4 cs
  | 4, c :: _ => isDigit c
  | _ + 5, _ :: _ => false

/-- A text of the form digits+ `/` digits+ `/` digits+. -/
def IsDate (m : Str) : Prop :=
  ∃ d1 d2 d3 : Str, m = d1 ++ '/' :: (d2 ++ '/' :: d3) ∧ d1 ≠ [] ∧ d2 ≠ [] ∧ d3 ≠ [] ∧
    (∀ c ∈ d1, isDigit c = true) ∧ (∀ c ∈ d2, isDigit c = true) ∧ (∀ c ∈ d3, isDigit c = true)

/-- The text has a substring of the form digits+ `/` digits+ `/` digits+. -/
def HasDate (s : Str) : Prop := ∃ pre m suf : Str, s = pre ++ (m ++ suf) ∧ IsDate m

/-- The characters the date pattern can never match: neither a digit nor `/`. -/
def otherChar (c : Char) : Bool := !isDigit c && !decide (c = '/')

/-- The cell printed for the heading `h` in the row `r`: element `r` of the vector stored under
`h` when there is one, the empty string otherwise. -/
def cell (t : Table) (h : Str) (r : Nat) : Str :=
  match t.find h with
  | some v => v.getD r []
  | none => []

/-- The line of the transposed block for the row `r`. -/
def rowLine (headers : List Str) (t : Table) (r : Nat) : Str :=
  (headers.map (fun h => cell t h r ++ ", ".toList)).flatten ++ "\n".toList

/-- The row key of a line: the normalised first field (the empty text stands in for the first
field of a line that has none, which `processLine` rejects). -/
def keyOf (line : Str) : Str := normalize ((splitLine line).headD [])

/-- The row key of the line with index `j`, counted from 0. -/
def keyAt (lines : List Str) (j : Nat) : Str := keyOf (lines.getD j [])

/-- Whether reading `line` in the state `st` takes the branch `if (containsKey(table, rowKey))`,
that is, prints and clears the table. -/
def flushes (st : State) (line : Str) : Bool :=
  match rowKeyOf line with
  | some rowKey => containsKey st.table rowKey
  | none => false

/-- Whether the line with index `k` (from 0) triggers a flush when the whole input is read. -/
def flushAt (lines : List Str) (k : Nat) : Bool :=
  match processLines State.init (lines.take k), lines[k]? with
  | some st, some line => flushes st line
  | _, _ => false

/-- The index of the most recent line before line `k` that triggered a flush, and 0 (the first
line) when there is none: the first line of the block that is open when line `k` is read. -/
def blockStart (lines : List Str) : Nat → Nat
  | 0 => 0
  | k + 1 => if flushAt lines k then k else blockStart lines k

/-- The keys of the lines with more than one field, in the order of the lines. -/
def multiKeys (lines : List Str) : List Str :=
  (lines.filter (fun l => decide (1 < (splitLine l).length))).map keyOf

/-- The heading registry: the keys are appended one by one unless present. -/
def addKeys (headings : List Str) (keys : List Str) : List Str :=
  keys.foldl (fun hs k => if k ∈ hs then hs else hs ++ [k]) headings

/-- The largest number of fields of a line, 0 when there is no line. -/
def maxFields (lines : List Str) : Nat :=
  (lines.map (fun l => (splitLine l).length)).foldr max 0

/-- The six input lines of the example in the usage text, without the blanks after the commas. -/
def usageLines : List Str :=
  ["header1,row1Value1".toList, "header2,row2Value1".toList,
    "header3 11/31/2011,row3Value1,row3Value2".toList, "header1,row4Value1,row4Value2".toList,
    "header2,row5Value1".toList, "header3 11/31/2011,row6Value1,row6Value2".toList]

/-- The three lines of "Source data" in the comment at the head of `transpose.cpp`. -/
def headerCommentLines : List Str :=
  ["header1, row1Value1, row2Value2".toList, "header2, row2Value1".toList,
    "header3 11/31/2011, row3Value1, row3Value2".toList]


/-- The overwriting insert of the specification: the entry for `key` is replaced when there is
one. -/
def Table.insertOrAssign (t : Table) (key : Str) (value : List Str) : Table :=
  (key, value) :: t.filter (fun p => decide (p.1 ≠ key))

/-- The list without its duplicates, the first occurrence of every element kept. -/
def firstOccurrences : List Str → List Str
  | [] => []
  | k :: ks => k :: (firstOccurrences ks).filter (fun x => decide (x ≠ k))

/-- The number of body rows that `printColumns` prints in the flush performed after the first `e`
lines: the flush triggered by the line with index `e`, or the final one when `e` is the number of
lines. -/
def flushRowCount (lines : List Str) (e : Nat) : Option Nat :=
  (processLines State.init (lines.take e)).map
    (fun st => (List.range' 1 (st.colCnt - 1).toNat).length)

/-- An input whose first line has three fields and whose third line repeats the key of the
first. -/
def valueLines : List Str := ["a,1,2".toList, "b,3".toList, "a,4".toList]

/-- The input `a,1`, `a,2`, `b,3`: the key `b` first occurs after the only flush in the loop. -/
def narrowHeaderLines : List Str := ["a,1".toList, "a,2".toList, "b,3".toList]

/-! ## `Split`: a description by recursion over the characters -/

theorem findFrom_none (p : Char → Bool) (l : List Char) (i : Nat) (h : findFrom p l i = none) :
    ∀ c ∈ l, p c = false := by
  induction l generalizing i with
  | nil => simp
  | cons c cs ih =>
    simp only [findFrom] at h
    split at h
    · simp at h
    · intro x hx
      rcases List.mem_cons.1 hx with rfl | hx
      · simpa using ‹¬ p x = true›
      · exact ih (i + 1) h x hx

theorem findFrom_some (p : Char → Bool) (l : List Char) (i j : Nat) (h : findFrom p l i = some j) :
    ∃ pre c suf, l = pre ++ c :: suf ∧ (∀ x ∈ pre, p x = false) ∧ p c = true ∧
      j = i + pre.length := by
  induction l generalizing i with
  | nil => simp [findFrom] at h
  | cons c cs ih =>
    simp only [findFrom] at h
    split at h
    · rename_i hc
      refine ⟨[], c, cs, rfl, by simp, hc, ?_⟩
      simp at h; simp [h]
    · rename_i hc
      obtain ⟨pre, d, suf, h1, h2, h3, h4⟩ := ih (i + 1) h
      refine ⟨c :: pre, d, suf, by simp [h1], ?_, h3, by simp [h4]; omega⟩
      intro x hx
      rcases List.mem_cons.1 hx with rfl | hx
      · simpa using hc
      · exact h2 x hx

theorem splitFrom_append (d : List Char) (ke : Bool) (n : Int) (seg pre rest : Str)
    (h : ∀ x ∈ pre, d.contains x = false) :
    splitFrom d ke n seg (pre ++ rest) = splitFrom d ke n (seg ++ pre) rest := by
  induction pre generalizing seg with
  | nil => simp
  | cons c cs ih =>
    have hc : d.contains c = false := h c (by simp)
    rw [List.cons_append, splitFrom]
    simp only [hc, Bool.false_eq_true, if_false]
    rw [ih _ (fun x hx => h x (by simp [hx]))]
    simp

theorem splitWhile_eq (str : Str) (d : List Char) (ke : Bool) (fuel : Nat) (lastPos : Nat)
    (m : Int) (acc : List Str) (hl : lastPos ≤ str.length) (hf : str.length - lastPos < fuel) :
    splitResult str (splitWhile str d ke fuel ⟨lastPos, findFirstOf str d lastPos, m, acc⟩) =
      acc ++ splitFrom d ke m [] (str.drop lastPos) := by
  induction fuel generalizing lastPos m acc with
  | zero => omega
  | succ fuel ih =>
    cases hpos : findFirstOf str d lastPos with
    | none =>
      have hno := findFrom_none _ _ _ hpos
      simp only [splitWhile]
      have := splitFrom_append d ke m [] (str.drop lastPos) [] hno
      simp only [List.append_nil, List.nil_append] at this
      rw [this]
      simp only [splitResult, splitFrom, substr]
      by_cases hlt : lastPos < str.length
      · have hne : str.drop lastPos ≠ [] := by
          intro h0
          have := congrArg List.length h0
          simp at this; omega
        by_cases hm : m = 0
        · simp [hlt, hm, hne]
        · simp [hlt, hm, hne]
      · have he : str.drop lastPos = [] := List.drop_eq_nil_of_le (by omega)
        simp [hlt, he]
    | some pos =>
      obtain ⟨pre, c, suf, h1, h2, h3, h4⟩ := findFrom_some _ _ _ _ hpos
      have hlen : str.length - lastPos = pre.length + 1 + suf.length := by
        have := congrArg List.length h1
        simp at this; omega
      have hdrop : str.drop (pos + 1) = suf := by
        have : str.drop (lastPos + (pre.length + 1)) = (str.drop lastPos).drop (pre.length + 1) := by
          rw [List.drop_drop]
        rw [h4, Nat.add_assoc, this, h1]
        simp
      have htake : (str.drop lastPos).take (pos - lastPos) = pre := by
        rw [h1, h4]; simp
      rw [h1, splitFrom_append d ke m [] pre (c :: suf) h2]
      simp only [splitWhile, List.nil_append, splitFrom, h3, if_true]
      by_cases hm : m - 1 > 0
      · simp only [hm, if_true]
        rw [ih (pos + 1) (m - 1) _ (by omega) (by omega), hdrop]
        have hne : (pos != lastPos) = decide (pre ≠ []) := by
          cases pre with
          | nil => simp [h4]
          | cons x xs => simp [h4]
        simp only [substr, htake, hne]
        split <;> simp
      · simp only [hm, if_false, splitResult]
        have hlt : lastPos < str.length := by omega
        simp only [hlt, if_true, substr]
        by_cases hm0 : m - 1 = 0
        · simp only [hm0, if_true]
          rw [List.take_of_length_le (by simp), h1]
        · simp [hm0, htake]

theorem Split_eq_splitFrom (str : Str) (d : List Char) (ke : Bool) (n : Int) :
    Split str d ke n = splitFrom d ke n [] str := by
  have := splitWhile_eq str d ke (str.length + 1) 0 n [] (Nat.zero_le _) (by omega)
  simpa [splitResult, Split] using this


/-! ## Consequences for comma separated lines -/

theorem intercalate_cons_cons (sep x y : Str) (l : List Str) :
    sep.intercalate (x :: y :: l) = x ++ sep ++ sep.intercalate (y :: l) := by
  simp [List.intercalate, List.intersperse]

theorem intercalate_single (sep x : Str) : sep.intercalate [x] = x := by
  simp [List.intercalate, List.intersperse]

theorem comma_contains (c : Char) : ([','] : List Char).contains c = decide (c = ',') := by
  by_cases h : c = ',' <;> simp [h]

theorem splitFrom_eq_nil (d : List Char) (n : Int) (hn : 1 ≤ n) (seg rest : Str) :
    splitFrom d true n seg rest = [] ↔ seg = [] ∧ rest = [] := by
  induction rest generalizing seg n with
  | nil => simp [splitFrom]
  | cons c cs ih =>
    rw [splitFrom]
    by_cases hc : c ∈ d
    · by_cases hm : n - 1 > 0
      · simp [hc, hm]
      · have : n - 1 = 0 := by omega
        simp [hc, this]
    · have hc2 : d.contains c = false := by simp [hc]
      simp only [hc2, Bool.false_eq_true, if_false]
      rw [ih n hn]
      simp

theorem splitFrom_length_le (d : List Char) (ke : Bool) (n : Int) (hn : 1 ≤ n) (seg rest : Str) :
    ((splitFrom d ke n seg rest).length : Int) ≤ n := by
  induction rest generalizing seg n with
  | nil =>
    rw [splitFrom]
    split <;> simp <;> omega
  | cons c cs ih =>
    rw [splitFrom]
    by_cases hc : d.contains c = true
    · by_cases hm : n - 1 > 0
      · have := ih (n - 1) (by omega) []
        simp only [hc, hm, if_true, List.length_append]
        split <;> simp <;> omega
      · simp only [hc, hm, if_true, if_false]
        split <;> simp <;> omega
    · simp only [hc, if_false]
      exact ih n hn _

/-- Below the cap no field contains a comma. -/
theorem splitFrom_no_comma (n : Int) (seg rest : Str) (hseg : ',' ∉ seg)
    (hcnt : (rest.count ',' : Int) < n) :
    ∀ f ∈ splitFrom [','] true n seg rest, ',' ∉ f := by
  induction rest generalizing seg n with
  | nil =>
    rw [splitFrom]
    split
    · simp
    · intro f hf
      simp at hf
      rw [hf]; exact hseg
  | cons c cs ih =>
    rw [splitFrom, comma_contains]
    by_cases hc : c = ','
    · subst hc
      simp only [List.count_cons_self, Nat.cast_add, Nat.cast_one] at hcnt
      have hm : n - 1 > 0 := by omega
      simp only [decide_True, if_true, hm, Bool.true_or]
      intro f hf
      rcases List.mem_append.1 hf with hf | hf
      · simp at hf
        rw [hf]; exact hseg
      · exact ih (n - 1) [] (by simp) (by omega) f hf
    · simp only [hc, decide_False, Bool.false_eq_true, if_false]
      have hcnt2 : (cs.count ',' : Int) < n := by
        rw [List.count_cons_of_ne (Ne.symm hc)] at hcnt
        exact hcnt
      exact ih n (seg ++ [c]) (by simp [hseg, Ne.symm hc]) hcnt2

/-- At the cap the last field is the unsplit rest of the line and contains a comma. -/
theorem splitFrom_capped (n : Int) (hn : 1 ≤ n) (seg rest : Str)
    (hcnt : n ≤ (rest.count ',' : Int)) :
    ∃ init last, splitFrom [','] true n seg rest = init ++ [last] ∧ ',' ∈ last := by
  induction rest generalizing seg n with
  | nil => simp at hcnt; omega
  | cons c cs ih =>
    rw [splitFrom, comma_contains]
    by_cases hc : c = ','
    · subst hc
      simp only [List.count_cons_self, Nat.cast_add, Nat.cast_one] at hcnt
      simp only [decide_True, if_true, Bool.true_or]
      by_cases hm : n - 1 > 0
      · obtain ⟨init, last, h1, h2⟩ := ih (n - 1) (by omega) [] (by omega)
        refine ⟨seg :: init, last, ?_, h2⟩
        simp [hm, h1]
      · have h0 : n - 1 = 0 := by omega
        refine ⟨[], seg ++ ',' :: cs, ?_, by simp⟩
        simp [h0]
    · simp only [hc, decide_False, Bool.false_eq_true, if_false]
      rw [List.count_cons_of_ne (Ne.symm hc)] at hcnt
      exact ih n hn (seg ++ [c]) hcnt

/-- Joining the fields gives the line back, without its last character when the cap was not
reached and the line ends with a comma. -/
theorem splitFrom_intercalate (n : Int) (hn : 1 ≤ n) (seg rest : Str) (hseg : ',' ∉ seg) :
    [','].intercalate (splitFrom [','] true n seg rest) =
      if (rest.count ',' : Int) < n ∧ (seg ++ rest).getLast? = some ',' then
        (seg ++ rest).dropLast
      else seg ++ rest := by
  induction rest generalizing seg n with
  | nil =>
    have hl : seg.getLast? ≠ some ',' := by
      intro h
      exact hseg (List.mem_of_getLast?_eq_some h)
    rw [splitFrom]
    split
    · rename_i h0; subst h0; simp [List.intercalate]
    · simp [intercalate_single, hl]
  | cons c cs ih =>
    rw [splitFrom, comma_contains]
    by_cases hc : c = ','
    · subst hc
      simp only [List.count_cons_self, Nat.cast_add, Nat.cast_one, decide_True, if_true,
        Bool.true_or]
      by_cases hm : n - 1 > 0
      · simp only [hm, if_true]
        cases hcs : cs with
        | nil =>
          have h1 : (1 : Int) < n := by omega
          simp [splitFrom, intercalate_single, h1, List.intercalate]
        | cons x xs =>
          have hne : splitFrom [','] true (n - 1) [] (x :: xs) ≠ [] := by
            rw [Ne, splitFrom_eq_nil _ _ (by omega)]; simp
          obtain ⟨y, ys, hy⟩ := List.exists_cons_of_ne_nil hne
          have := ih (n - 1) (by omega) [] (by simp)
          rw [hcs, hy] at this
          rw [hy, List.singleton_append, intercalate_cons_cons, this]
          have e1 : ((↑(List.count ',' (x :: xs)) : Int) < n - 1) ↔
              ((↑(List.count ',' (x :: xs)) : Int) + 1 < n) := by omega
          have e2 : (seg ++ ',' :: x :: xs).getLast? = (x :: xs).getLast? := by
            rw [List.getLast?_append_of_ne_nil _ (by simp)]
            rw [List.getLast?_cons_cons]
          have e3 : (seg ++ ',' :: x :: xs).dropLast = seg ++ ',' :: (x :: xs).dropLast := by
            rw [List.dropLast_append_of_ne_nil _ (by simp)]
            simp
          simp only [List.nil_append, e1, e2, e3]
          split <;> simp
      · have h0 : n - 1 = 0 := by omega
        have : ¬ ((↑(List.count ',' cs) : Int) + 1 < n) := by omega
        simp [h0, this, intercalate_single]
    · simp only [hc, decide_False, Bool.false_eq_true, if_false]
      rw [ih n hn (seg ++ [c]) (by simp [hseg, Ne.symm hc]), List.count_cons_of_ne (Ne.symm hc)]
      simp

/-- Splitting a line that was joined from comma free fields gives the fields back, except for one
empty field at the very end. -/
theorem splitFrom_roundtrip (n : Int) (fs : List Str) (hfs : ∀ f ∈ fs, ',' ∉ f)
    (hn : (fs.length : Int) ≤ n) :
    splitFrom [','] true n [] ([','].intercalate fs) =
      if fs.getLast? = some [] then fs.dropLast else fs := by
  induction fs generalizing n with
  | nil => simp [List.intercalate, splitFrom]
  | cons f rest ih =>
    cases rest with
    | nil =>
      have := splitFrom_append [','] true n [] f [] (by
        intro x hx
        rw [comma_contains]
        have : x ≠ ',' := fun h => hfs f (by simp) (h ▸ hx)
        simp [this])
      simp only [List.append_nil, List.nil_append] at this
      rw [intercalate_single, this, splitFrom]
      by_cases hf : f = [] <;> simp [hf]
    | cons g rest =>
      have h1 := splitFrom_append [','] true n [] f ([','] ++ [','].intercalate (g :: rest)) (by
        intro x hx
        rw [comma_contains]
        have : x ≠ ',' := fun h => hfs f (by simp) (h ▸ hx)
        simp [this])
      simp only [List.length_cons, Nat.cast_add, Nat.cast_one] at hn
      have hm : n - 1 > 0 := by omega
      rw [intercalate_cons_cons, List.append_assoc, h1, List.nil_append, List.singleton_append,
        splitFrom]
      simp only [comma_contains, decide_True, if_true, hm, Bool.true_or]
      rw [ih (n - 1) (fun x hx => hfs x (by simp [hx])) (by simp; omega)]
      rw [List.getLast?_cons_cons]
      split <;> simp


/-! ## The date pattern: from the backtracking matcher to a closed form -/

theorem tryCounts_none (cont : Str → Option Nat) (s : Str) (k : Nat)
    (h : ∀ j, 1 ≤ j → j ≤ k → cont (s.drop j) = none) : tryCounts cont s k = none := by
  induction k with
  | zero => rfl
  | succ k ih =>
    rw [tryCounts, h (k + 1) (by omega) (by omega)]
    exact ih (fun j h1 h2 => h j h1 (by omega))

theorem drop_lt_takeWhile (p : Char → Bool) (s : Str) (j : Nat)
    (h : j < (s.takeWhile p).length) : ∃ x xs, s.drop j = x :: xs ∧ p x = true := by
  induction s generalizing j with
  | nil => simp at h
  | cons c cs ih =>
    by_cases hc : p c = true
    · cases j with
      | zero => exact ⟨c, cs, rfl, hc⟩
      | succ j =>
        simp only [List.takeWhile_cons, hc, if_true, List.length_cons] at h
        simpa using ih j (by omega)
    · simp [List.takeWhile_cons, hc] at h

theorem drop_takeWhile_length (p : Char → Bool) (s : Str) :
    s.drop (s.takeWhile p).length = s.dropWhile p := by
  induction s with
  | nil => rfl
  | cons c cs ih =>
    by_cases hc : p c = true
    · simp [List.takeWhile_cons, List.dropWhile_cons, hc, ih]
    · simp [List.takeWhile_cons, List.dropWhile_cons, hc]

theorem matchAtoms_digits_lit (c : Char) (hc : isDigit c = false) (rest : List Atom) (s : Str) :
    matchAtoms (Atom.digits :: Atom.lit c :: rest) s =
      if (s.takeWhile isDigit).length = 0 then none
      else (matchAtoms (Atom.lit c :: rest) (s.dropWhile isDigit)).map
        (fun n => (s.takeWhile isDigit).length + n) := by
  rw [matchAtoms]
  cases hk : (s.takeWhile isDigit).length with
  | zero => simp [tryCounts]
  | succ k =>
    have hnone : tryCounts (matchAtoms (Atom.lit c :: rest)) s k = none := by
      apply tryCounts_none
      intro j _ h2
      obtain ⟨x, xs, h3, h4⟩ := drop_lt_takeWhile isDigit s j (by omega)
      have hx : x ≠ c := by
        intro h; rw [h, hc] at h4; cases h4
      rw [h3, matchAtoms]
      simp [hx]
    have hd := drop_takeWhile_length isDigit s
    rw [hk] at hd
    rw [tryCounts, hd, hnone]
    cases matchAtoms (Atom.lit c :: rest) (s.dropWhile isDigit) <;> simp

theorem matchAtoms_digits_end (s : Str) :
    matchAtoms [Atom.digits] s =
      if (s.takeWhile isDigit).length = 0 then none else some (s.takeWhile isDigit).length := by
  rw [matchAtoms]
  cases hk : (s.takeWhile isDigit).length with
  | zero => simp [tryCounts]
  | succ k => simp [tryCounts, matchAtoms]

theorem takeWhile_length_eq_zero (s : Str) :
    (s.takeWhile isDigit).length = 0 ↔ headDigit s = false := by
  cases s with
  | nil => simp [headDigit]
  | cons c cs =>
    by_cases hc : isDigit c = true <;> simp [List.takeWhile_cons, headDigit, hc]

theorem headDigit_dropWhile (s : Str) : headDigit (s.dropWhile isDigit) = false := by
  induction s with
  | nil => rfl
  | cons c cs ih =>
    by_cases hc : isDigit c = true
    · simpa [List.dropWhile_cons, hc] using ih
    · simp [List.dropWhile_cons, hc, headDigit]

theorem slash_not_digit : isDigit '/' = false := by decide

/-- The closed form of a match of `dateRegEx` at the start of `s`. -/
theorem matchAtoms_dateRegEx (s : Str) :
    matchAtoms dateRegEx s =
      if headDigit s = false then none else
      match s.dropWhile isDigit with
      | [] => none
      | x :: t1 =>
        if x = '/' then
          if headDigit t1 = false then none else
          match t1.dropWhile isDigit with
          | [] => none
          | y :: t2 =>
            if y = '/' then
              if headDigit t2 = false then none
              else some ((s.takeWhile isDigit).length +
                ((t1.takeWhile isDigit).length + ((t2.takeWhile isDigit).length + 1) + 1))
            else none
        else none := by
  rw [dateRegEx, matchAtoms_digits_lit _ slash_not_digit]
  simp only [takeWhile_length_eq_zero]
  by_cases h1 : headDigit s = false
  · simp [h1]
  · simp only [h1, if_false]
    cases s.dropWhile isDigit with
    | nil => simp [matchAtoms]
    | cons x t1 =>
      rw [matchAtoms]
      by_cases hx : x = '/'
      · simp only [hx, if_true]
        rw [matchAtoms_digits_lit _ slash_not_digit]
        simp only [takeWhile_length_eq_zero]
        by_cases h2 : headDigit t1 = false
        · simp [h2]
        · simp only [h2, if_false]
          cases t1.dropWhile isDigit with
          | nil => simp [matchAtoms]
          | cons y t2 =>
            rw [matchAtoms]
            by_cases hy : y = '/'
            · simp only [hy, if_true]
              rw [matchAtoms_digits_end]
              simp only [takeWhile_length_eq_zero]
              by_cases h3 : headDigit t2 = false
              · simp [h3]
              · simp [h3]
            · simp [hy]
      · simp [hx]


/-! ## The recogniser and the scan -/

theorem acc_one_eq (s : Str) :
    acc 1 s = match s.dropWhile isDigit with
      | [] => false
      | x :: t => decide (x = '/') && acc 2 t := by
  induction s with
  | nil => rfl
  | cons c cs ih =>
    by_cases hc : isDigit c = true
    · simp only [acc, hc, if_true, List.dropWhile_cons]
      exact ih
    · simp [acc, hc, List.dropWhile_cons]

theorem acc_three_eq (s : Str) :
    acc 3 s = match s.dropWhile isDigit with
      | [] => false
      | x :: t => decide (x = '/') && acc 4 t := by
  induction s with
  | nil => rfl
  | cons c cs ih =>
    by_cases hc : isDigit c = true
    · simp only [acc, hc, if_true, List.dropWhile_cons]
      exact ih
    · simp [acc, hc, List.dropWhile_cons]

theorem acc_zero_eq (s : Str) : acc 0 s = (headDigit s && acc 1 s) := by
  cases s with
  | nil => rfl
  | cons c cs => by_cases hc : isDigit c = true <;> simp [acc, headDigit, hc]

theorem acc_two_eq (s : Str) : acc 2 s = (headDigit s && acc 3 s) := by
  cases s with
  | nil => rfl
  | cons c cs => by_cases hc : isDigit c = true <;> simp [acc, headDigit, hc]

theorem acc_four_eq (s : Str) : acc 4 s = headDigit s := by
  cases s with
  | nil => rfl
  | cons c cs => simp [acc, headDigit]

/-- The recogniser in closed form. -/
theorem acc_zero_closed (s : Str) :
    acc 0 s = (headDigit s &&
      match s.dropWhile isDigit with
      | [] => false
      | x :: t1 => decide (x = '/') && (headDigit t1 &&
        match t1.dropWhile isDigit with
        | [] => false
        | y :: t2 => decide (y = '/') && headDigit t2)) := by
  rw [acc_zero_eq, acc_one_eq]
  cases s.dropWhile isDigit with
  | nil => rfl
  | cons x t1 =>
    simp only [acc_two_eq, acc_three_eq]
    cases t1.dropWhile isDigit with
    | nil => rfl
    | cons y t2 => simp only [acc_four_eq]

theorem isSome_matchAtoms (s : Str) : (matchAtoms dateRegEx s).isSome = acc 0 s := by
  rw [matchAtoms_dateRegEx, acc_zero_closed]
  cases h1 : headDigit s with
  | false => simp
  | true =>
    cases hd1 : s.dropWhile isDigit with
    | nil => simp
    | cons x t1 =>
      by_cases hx : x = '/'
      · cases h2 : headDigit t1 with
        | false => simp [hx, h2]
        | true =>
          cases hd2 : t1.dropWhile isDigit with
          | nil => simp [hx, h2, hd2]
          | cons y t2 =>
            by_cases hy : y = '/'
            · cases h3 : headDigit t2 <;> simp [hx, hy, h2, hd2, h3]
            · simp [hx, hy, h2, hd2]
      · simp [hx]

theorem drop_takeWhile_add (s : Str) (m : Nat) :
    s.drop ((s.takeWhile isDigit).length + m) = (s.dropWhile isDigit).drop m := by
  rw [← drop_takeWhile_length, List.drop_drop]

/-- What a match tells about the text: it is not empty, the text after it does not start with a
digit, and the text is also accepted from inside the first and inside the second number. -/
theorem matchAtoms_some (s : Str) (n : Nat) (h : matchAtoms dateRegEx s = some n) :
    1 ≤ n ∧ headDigit (s.drop n) = false ∧ acc 1 s = true ∧ acc 3 s = true := by
  rw [matchAtoms_dateRegEx] at h
  cases h1 : headDigit s with
  | false => simp [h1] at h
  | true =>
    rw [acc_one_eq, acc_three_eq]
    cases hd1 : s.dropWhile isDigit with
    | nil => simp [h1, hd1] at h
    | cons x t1 =>
      by_cases hx : x = '/'
      · cases h2 : headDigit t1 with
        | false => simp [h1, hd1, hx, h2] at h
        | true =>
          cases hd2 : t1.dropWhile isDigit with
          | nil => simp [h1, hd1, hx, h2, hd2] at h
          | cons y t2 =>
            by_cases hy : y = '/'
            · cases h3 : headDigit t2 with
              | false => simp [h1, hd1, hx, h2, hd2, hy, h3] at h
              | true =>
                simp only [h1, hd1, hx, h2, hd2, hy, h3, if_true, Bool.true_eq_false,
                  if_false, Option.some.injEq] at h
                subst h
                refine ⟨by omega, ?_, ?_, ?_⟩
                · rw [drop_takeWhile_add, hd1, Nat.add_comm _ 1, Nat.add_comm 1,
                    List.drop_succ_cons, drop_takeWhile_add, hd2, List.drop_succ_cons,
                    drop_takeWhile_length]
                  exact headDigit_dropWhile t2
                · simp [hx, acc_two_eq, acc_three_eq, hd2, hy, acc_four_eq, h2, h3]
                · simp [hx, acc_four_eq, h2]
            · simp [h1, hd1, hx, h2, hd2, hy] at h
      · simp [h1, hd1, hx] at h

theorem acc_of_not_headDigit (q : Nat) (r : Str) (hr : headDigit r = false)
    (h : acc q r = true) : q = 1 ∨ q = 3 := by
  cases r with
  | nil => simp [acc] at h
  | cons c cs =>
    have hc : isDigit c = false := hr
    match q with
    | 0 => simp [acc, hc] at h
    | 1 => exact Or.inl rfl
    | 2 => simp [acc, hc] at h
    | 3 => exact Or.inr rfl
    | 4 => simp [acc, hc] at h
    | _ + 5 => simp [acc] at h

theorem replaceScan_skip (re : List Atom) (k : Nat) (s : Str) :
    replaceScan re k s = replaceScan re 0 (s.drop k) := by
  induction s generalizing k with
  | nil => cases k <;> simp [replaceScan]
  | cons c cs ih =>
    cases k with
    | zero => rfl
    | succ k => rw [replaceScan, List.drop_succ_cons, ih]

theorem normalize_nil : normalize [] = [] := rfl

theorem normalize_cons_none (c : Char) (cs : Str) (h : matchAtoms dateRegEx (c :: cs) = none) :
    normalize (c :: cs) = c :: normalize cs := by
  simp only [normalize, replaceScan, h]

theorem normalize_cons_some (c : Char) (cs : Str) (n : Nat)
    (h : matchAtoms dateRegEx (c :: cs) = some n) :
    normalize (c :: cs) = normalize ((c :: cs).drop n) := by
  have hn := (matchAtoms_some _ _ h).1
  obtain ⟨k, rfl⟩ : ∃ k, n = k + 1 := ⟨n - 1, by omega⟩
  simp only [normalize, replaceScan, h, List.drop_succ_cons, Nat.add_sub_cancel]
  exact replaceScan_skip _ _ _

/-- Deleting the dates creates no date: whatever the recogniser accepts in the normalised text, in
any state, it accepts in the original text. -/
theorem acc_of_acc_normalize (k : Nat) : ∀ (s : Str), s.length ≤ k → ∀ q,
    acc q (normalize s) = true → acc q s = true := by
  induction k with
  | zero =>
    intro s hs q h
    have : s = [] := List.length_eq_zero.1 (by omega)
    subst this
    exact h
  | succ k ih =>
    intro s hs q h
    cases s with
    | nil => exact h
    | cons c cs =>
      cases hm : matchAtoms dateRegEx (c :: cs) with
      | some n =>
        obtain ⟨h1, h2, h3, h4⟩ := matchAtoms_some _ _ hm
        rw [normalize_cons_some c cs n hm] at h
        have hlen : ((c :: cs).drop n).length ≤ k := by
          rw [List.length_drop]; simp at hs ⊢; omega
        have := ih _ hlen q h
        rcases acc_of_not_headDigit q _ h2 this with rfl | rfl
        · exact h3
        · exact h4
      | none =>
        rw [normalize_cons_none c cs hm] at h
        have hcs : cs.length ≤ k := by simpa using hs
        match q with
        | 0 =>
          simp only [acc, Bool.and_eq_true] at h ⊢
          exact ⟨h.1, ih cs hcs 1 h.2⟩
        | 1 =>
          simp only [acc] at h ⊢
          cases hc : isDigit c with
          | true =>
            rw [hc] at h
            simp only [if_true] at h ⊢
            exact ih cs hcs 1 h
          | false =>
            rw [hc] at h
            simp only [Bool.false_eq_true, if_false, Bool.and_eq_true] at h ⊢
            exact ⟨h.1, ih cs hcs 2 h.2⟩
        | 2 =>
          simp only [acc, Bool.and_eq_true] at h ⊢
          exact ⟨h.1, ih cs hcs 3 h.2⟩
        | 3 =>
          simp only [acc] at h ⊢
          cases hc : isDigit c with
          | true =>
            rw [hc] at h
            simp only [if_true] at h ⊢
            exact ih cs hcs 3 h
          | false =>
            rw [hc] at h
            simp only [Bool.false_eq_true, if_false, Bool.and_eq_true] at h ⊢
            exact ⟨h.1, ih cs hcs 4 h.2⟩
        | 4 => exact h
        | _ + 5 => simp [acc] at h

/-- No date starts at any position of a normalised text. -/
theorem no_match_normalize (k : Nat) : ∀ (s : Str), s.length ≤ k →
    ∀ pre u, normalize s = pre ++ u → matchAtoms dateRegEx u = none := by
  induction k with
  | zero =>
    intro s hs pre u h
    have : s = [] := List.length_eq_zero.1 (by omega)
    subst this
    rw [normalize_nil] at h
    have := List.append_eq_nil.1 h.symm
    rw [this.2]; rfl
  | succ k ih =>
    intro s hs pre u h
    cases s with
    | nil =>
      rw [normalize_nil] at h
      have := List.append_eq_nil.1 h.symm
      rw [this.2]; rfl
    | cons c cs =>
      cases hm : matchAtoms dateRegEx (c :: cs) with
      | some n =>
        have h1 := (matchAtoms_some _ _ hm).1
        rw [normalize_cons_some c cs n hm] at h
        have hlen : ((c :: cs).drop n).length ≤ k := by
          rw [List.length_drop]; simp at hs ⊢; omega
        exact ih _ hlen pre u h
      | none =>
        have hcs : cs.length ≤ k := by simpa using hs
        cases pre with
        | nil =>
          rw [List.nil_append] at h
          rw [← h]
          cases hu : matchAtoms dateRegEx (normalize (c :: cs)) with
          | none => rfl
          | some m =>
            have h0 : acc 0 (normalize (c :: cs)) = true := by
              rw [← isSome_matchAtoms, hu]; rfl
            have := acc_of_acc_normalize (k + 1) (c :: cs) hs 0 h0
            rw [← isSome_matchAtoms, hm] at this
            cases this
        | cons x pre =>
          rw [normalize_cons_none c cs hm] at h
          simp only [List.cons_append, List.cons.injEq] at h
          exact ih cs hcs pre u h.2

/-- A text in which no date starts anywhere is left alone. -/
theorem normalize_eq_self (s : Str)
    (h : ∀ pre u, s = pre ++ u → matchAtoms dateRegEx u = none) : normalize s = s := by
  induction s with
  | nil => rfl
  | cons c cs ih =>
    rw [normalize_cons_none c cs (h [] _ rfl), ih]
    intro pre u hu
    exact h (c :: pre) u (by simp [hu])


/-! ## Dates as substrings -/

theorem acc_one_append (d r : Str) (hd : ∀ c ∈ d, isDigit c = true) :
    acc 1 (d ++ r) = acc 1 r := by
  induction d with
  | nil => rfl
  | cons c cs ih =>
    have hc : isDigit c = true := hd c (by simp)
    rw [List.cons_append, acc]
    simp only [hc, if_true]
    exact ih (fun x hx => hd x (by simp [hx]))

theorem acc_three_append (d r : Str) (hd : ∀ c ∈ d, isDigit c = true) :
    acc 3 (d ++ r) = acc 3 r := by
  induction d with
  | nil => rfl
  | cons c cs ih =>
    have hc : isDigit c = true := hd c (by simp)
    rw [List.cons_append, acc]
    simp only [hc, if_true]
    exact ih (fun x hx => hd x (by simp [hx]))

/-- A text that starts with a date is accepted by the recogniser. -/
theorem acc_of_isDate (m suf : Str) (h : IsDate m) : acc 0 (m ++ suf) = true := by
  obtain ⟨d1, d2, d3, rfl, h1, h2, h3, g1, g2, g3⟩ := h
  obtain ⟨a, as, rfl⟩ := List.exists_cons_of_ne_nil h1
  obtain ⟨b, bs, rfl⟩ := List.exists_cons_of_ne_nil h2
  obtain ⟨c, cs, rfl⟩ := List.exists_cons_of_ne_nil h3
  have ha : isDigit a = true := g1 a (by simp)
  have hb : isDigit b = true := g2 b (by simp)
  have hc : isDigit c = true := g3 c (by simp)
  simp only [List.cons_append, List.append_assoc]
  rw [acc, ha, Bool.true_and, acc_one_append as _ (fun x hx => g1 x (by simp [hx])), acc]
  simp only [slash_not_digit, Bool.false_eq_true, if_false, decide_True, Bool.true_and]
  rw [acc, hb, Bool.true_and, acc_three_append bs _ (fun x hx => g2 x (by simp [hx])), acc]
  simp only [slash_not_digit, Bool.false_eq_true, if_false, decide_True, Bool.true_and]
  rw [acc]
  exact hc

theorem takeWhile_ne_nil (s : Str) (h : headDigit s = true) : s.takeWhile isDigit ≠ [] := by
  intro h0
  have := (takeWhile_length_eq_zero s).1 (by simp [h0])
  rw [h] at this
  cases this

/-- A text accepted by the recogniser starts with a date. -/
theorem isDate_of_acc (u : Str) (h : acc 0 u = true) : ∃ m suf, u = m ++ suf ∧ IsDate m := by
  rw [acc_zero_closed] at h
  cases h1 : headDigit u with
  | false => simp [h1] at h
  | true =>
    cases hd1 : u.dropWhile isDigit with
    | nil => simp [h1, hd1] at h
    | cons x t1 =>
      simp only [h1, hd1, Bool.true_and, Bool.and_eq_true, decide_eq_true_eq] at h
      obtain ⟨hx, h2, h⟩ := h
      cases hd2 : t1.dropWhile isDigit with
      | nil => simp [hd2] at h
      | cons y t2 =>
        simp only [hd2, Bool.and_eq_true, decide_eq_true_eq] at h
        obtain ⟨hy, h3⟩ := h
        cases t2 with
        | nil => simp [headDigit] at h3
        | cons z t3 =>
          have hz : isDigit z = true := h3
          refine ⟨u.takeWhile isDigit ++ '/' :: (t1.takeWhile isDigit ++ '/' :: [z]), t3, ?_,
            u.takeWhile isDigit, t1.takeWhile isDigit, [z], rfl, takeWhile_ne_nil u h1,
            takeWhile_ne_nil t1 h2, by simp, ?_, ?_, ?_⟩
          · have e1 := List.takeWhile_append_dropWhile isDigit u
            have e2 := List.takeWhile_append_dropWhile isDigit t1
            rw [hd1, hx] at e1
            rw [hd2, hy] at e2
            conv_lhs => rw [← e1, ← e2]
            simp
          · intro c hc
            exact List.mem_takeWhile_imp hc
          · intro c hc
            exact List.mem_takeWhile_imp hc
          · intro c hc
            simp at hc
            rw [hc]; exact hz

/-- A text has a date substring exactly when `dateRegEx` matches at one of its positions. -/
theorem hasDate_iff (s : Str) :
    HasDate s ↔ ∃ pre u, s = pre ++ u ∧ matchAtoms dateRegEx u ≠ none := by
  constructor
  · rintro ⟨pre, m, suf, rfl, hm⟩
    refine ⟨pre, m ++ suf, rfl, ?_⟩
    have := acc_of_isDate m suf hm
    rw [← isSome_matchAtoms] at this
    intro h0
    rw [h0] at this
    cases this
  · rintro ⟨pre, u, rfl, hu⟩
    have h0 : acc 0 u = true := by
      rw [← isSome_matchAtoms]
      cases hm : matchAtoms dateRegEx u with
      | none => exact absurd hm hu
      | some n => rfl
    obtain ⟨m, suf, rfl, hm⟩ := isDate_of_acc u h0
    exact ⟨pre, m, suf, rfl, hm⟩

theorem not_hasDate_normalize (s : Str) : ¬ HasDate (normalize s) := by
  rw [hasDate_iff]
  rintro ⟨pre, u, h, hu⟩
  exact hu (no_match_normalize s.length s (Nat.le_refl _) pre u h)

theorem normalize_of_not_hasDate (s : Str) (h : ¬ HasDate s) : normalize s = s := by
  apply normalize_eq_self
  intro pre u hs
  by_contra hne
  exact h ((hasDate_iff s).2 ⟨pre, u, hs, hne⟩)

/-! ## What the scan deletes -/

theorem replaceScan_sublist (re : List Atom) (k : Nat) (s : Str) :
    (replaceScan re k s).Sublist s := by
  induction s generalizing k with
  | nil => cases k <;> simp [replaceScan]
  | cons c cs ih =>
    cases k with
    | zero =>
      rw [replaceScan]
      cases matchAtoms re (c :: cs) with
      | none => exact (ih 0).cons₂ c
      | some n => exact (ih (n - 1)).cons c
    | succ k =>
      rw [replaceScan]
      exact (ih k).cons c

theorem filter_other_dropWhile (s : Str) :
    (s.dropWhile isDigit).filter otherChar = s.filter otherChar := by
  induction s with
  | nil => rfl
  | cons c cs ih =>
    cases hc : isDigit c with
    | true => simp [List.dropWhile_cons, hc, otherChar, ih]
    | false => simp [List.dropWhile_cons, hc]

theorem filter_other_of_dropWhile (s t : Str) (h : s.dropWhile isDigit = '/' :: t) :
    s.filter otherChar = t.filter otherChar := by
  rw [← filter_other_dropWhile, h]
  simp [otherChar]

/-- The characters of a match are digits and slashes only. -/
theorem matchAtoms_filter (s : Str) (n : Nat) (h : matchAtoms dateRegEx s = some n) :
    (s.drop n).filter otherChar = s.filter otherChar := by
  rw [matchAtoms_dateRegEx] at h
  cases h1 : headDigit s with
  | false => simp [h1] at h
  | true =>
    cases hd1 : s.dropWhile isDigit with
    | nil => simp [h1, hd1] at h
    | cons x t1 =>
      by_cases hx : x = '/'
      · cases h2 : headDigit t1 with
        | false => simp [h1, hd1, hx, h2] at h
        | true =>
          cases hd2 : t1.dropWhile isDigit with
          | nil => simp [h1, hd1, hx, h2, hd2] at h
          | cons y t2 =>
            by_cases hy : y = '/'
            · cases h3 : headDigit t2 with
              | false => simp [h1, hd1, hx, h2, hd2, hy, h3] at h
              | true =>
                simp only [h1, hd1, hx, h2, hd2, hy, h3, if_true, Bool.true_eq_false,
                  if_false, Option.some.injEq] at h
                subst h
                rw [drop_takeWhile_add, hd1, Nat.add_comm _ 1, Nat.add_comm 1,
                  List.drop_succ_cons, drop_takeWhile_add, hd2, List.drop_succ_cons,
                  drop_takeWhile_length, filter_other_dropWhile,
                  filter_other_of_dropWhile s t1 (by rw [hd1, hx]),
                  filter_other_of_dropWhile t1 t2 (by rw [hd2, hy])]
            · simp [h1, hd1, hx, h2, hd2, hy] at h
      · simp [h1, hd1, hx] at h

theorem normalize_filter (k : Nat) : ∀ (s : Str), s.length ≤ k →
    (normalize s).filter otherChar = s.filter otherChar := by
  induction k with
  | zero =>
    intro s hs
    have : s = [] := List.length_eq_zero.1 (by omega)
    subst this
    rfl
  | succ k ih =>
    intro s hs
    cases s with
    | nil => rfl
    | cons c cs =>
      cases hm : matchAtoms dateRegEx (c :: cs) with
      | some n =>
        have h1 := (matchAtoms_some _ _ hm).1
        have hlen : ((c :: cs).drop n).length ≤ k := by
          rw [List.length_drop]; simp at hs ⊢; omega
        rw [normalize_cons_some c cs n hm, ih _ hlen, matchAtoms_filter _ _ hm]
      | none =>
        have hcs : cs.length ≤ k := by simpa using hs
        rw [normalize_cons_none c cs hm, List.filter_cons, List.filter_cons, ih cs hcs]


/-! ## `printColumns` -/

theorem find_append_single (t : Table) (h k : Str) (v : List Str) :
    Table.find (t ++ [(h, v)]) k =
      match Table.find t k with
      | some w => some w
      | none => if h = k then some v else none := by
  induction t with
  | nil => simp [Table.find]
  | cons p t ih =>
    obtain ⟨a, b⟩ := p
    simp only [List.cons_append, Table.find]
    by_cases hk : a = k
    · simp [hk]
    · simp [hk, ih]

theorem cell_index (t : Table) (h k : Str) (r : Nat) :
    cell (t.index h).2 k r = cell t k r := by
  unfold Table.index
  cases hf : t.find h with
  | some v => rfl
  | none =>
    simp only [cell, find_append_single]
    cases hk : t.find k with
    | some w => rfl
    | none =>
      by_cases e : h = k <;> simp [e]

theorem index_fst_getD (t : Table) (h : Str) (r : Nat) :
    (t.index h).1.getD r [] = cell t h r := by
  unfold Table.index cell
  cases hf : t.find h <;> simp

theorem printRow_spec (row : Nat) (headers : List Str) : ∀ (data : Table) (out : Str),
    (printRow row headers data out).1 =
        out ++ (headers.map (fun h => cell data h row ++ ", ".toList)).flatten ∧
      ∀ k r, cell (printRow row headers data out).2 k r = cell data k r := by
  induction headers with
  | nil => intro data out; simp [printRow]
  | cons h rest ih =>
    intro data out
    have hcell : ∀ k r, cell (data.index h).2 k r = cell data k r := cell_index data h
    rw [printRow]
    by_cases hlt : row < (data.index h).1.length
    · simp only [hlt, if_true]
      obtain ⟨h1, h2⟩ := ih (data.index h).2 (out ++ (data.index h).1.getD row [] ++ ", ".toList)
      refine ⟨?_, fun k r => (h2 k r).trans (hcell k r)⟩
      rw [h1, index_fst_getD]
      simp [hcell]
    · simp only [hlt, if_false]
      obtain ⟨h1, h2⟩ := ih (data.index h).2 (out ++ ", ".toList)
      refine ⟨?_, fun k r => (h2 k r).trans (hcell k r)⟩
      have he : cell data h row = [] := by
        rw [← index_fst_getD]
        exact List.getD_eq_default _ _ (by omega)
      rw [h1]
      simp [hcell, he]

theorem printRows_spec (headers : List Str) (rows : List Nat) : ∀ (data : Table) (out : Str),
    (printRows headers rows data out).1 =
        out ++ (rows.map (fun r => rowLine headers data r)).flatten ∧
      ∀ k r, cell (printRows headers rows data out).2 k r = cell data k r := by
  induction rows with
  | nil => intro data out; simp [printRows]
  | cons row rows ih =>
    intro data out
    rw [printRows]
    obtain ⟨h1, h2⟩ := printRow_spec row headers data out
    obtain ⟨h3, h4⟩ := ih (printRow row headers data out).2
      ((printRow row headers data out).1 ++ "\n".toList)
    refine ⟨?_, fun k r => (h4 k r).trans (h2 k r)⟩
    rw [h3, h1]
    simp [rowLine, h2]

theorem printColumns_eq (headers : List Str) (data : Table) (colCnt : Int) :
    (printColumns headers data colCnt).1 =
      ((List.range' 1 (colCnt - 1).toNat).map (fun r => rowLine headers data r)).flatten := by
  have := (printRows_spec headers (List.range' 1 (colCnt - 1).toNat) data []).1
  simpa [printColumns] using this


/-! ## One line of input -/

theorem intMax_pos : (1 : Int) ≤ intMax := by decide

theorem splitLine_eq (s : Str) : splitLine s = splitFrom [','] true intMax [] s :=
  Split_eq_splitFrom s [','] true intMax

theorem splitLine_eq_nil (s : Str) : splitLine s = [] ↔ s = [] := by
  rw [splitLine_eq, splitFrom_eq_nil _ _ intMax_pos]
  simp

theorem splitLine_length_le (s : Str) : ((splitLine s).length : Int) ≤ intMax := by
  rw [splitLine_eq]
  exact splitFrom_length_le _ _ _ intMax_pos _ _

/-- The cast `(int)fields.size()` loses nothing: a line never has more than `INT_MAX` fields. -/
theorem castInt_length (s : Str) : castInt (splitLine s).length = ((splitLine s).length : Int) := by
  have h := splitLine_length_le s
  unfold intMax at h
  unfold castInt
  have h1 : (splitLine s).length % 4294967296 = (splitLine s).length :=
    Nat.mod_eq_of_lt (by omega)
  rw [h1]
  have h2 : (splitLine s).length < 2147483648 := by omega
  simp [h2]

theorem rowKeyOf_eq (line : Str) (h : line ≠ []) : rowKeyOf line = some (keyOf line) := by
  unfold rowKeyOf keyOf
  cases hs : splitLine line with
  | nil => exact absurd ((splitLine_eq_nil line).1 hs) h
  | cons f rest => rfl

/-- A line that is not empty is processed, and this is the next state. -/
theorem processLine_some (st : State) (line : Str) (h : line ≠ []) :
    ∃ st1, processLine st line = some st1 ∧
      st1.colHeadings =
        (if 1 < (splitLine line).length ∧ keyOf line ∉ st.colHeadings then
          st.colHeadings ++ [keyOf line] else st.colHeadings) ∧
      st1.colCnt = max ((splitLine line).length : Int) st.colCnt ∧
      st1.table = Table.insert (if flushes st line then [] else st.table) (keyOf line)
        (splitLine line) := by
  have hk : flushes st line = containsKey st.table (keyOf line) := by
    unfold flushes
    rw [rowKeyOf_eq line h]
  have hc := castInt_length line
  rw [hk]
  unfold processLine keyOf
  unfold keyOf at hk
  cases hs : splitLine line with
  | nil => exact absurd ((splitLine_eq_nil line).1 hs) h
  | cons f rest =>
    rw [hs] at hc
    simp only [List.length_cons, Nat.cast_add, Nat.cast_one] at hc
    simp only [List.headD_cons]
    refine ⟨_, rfl, ?_, ?_, ?_⟩
    · by_cases hf : containsKey st.table (normalize f) = true
      · by_cases h1 : 1 < (f :: rest).length <;> by_cases h2 : normalize f ∈ st.colHeadings <;>
          simp [hf, flush, contains, h1, h2]
      · by_cases h1 : 1 < (f :: rest).length <;> by_cases h2 : normalize f ∈ st.colHeadings <;>
          simp [hf, contains, h1, h2]
    · by_cases hf : containsKey st.table (normalize f) = true
      · simp [hf, flush, hc]
      · simp [hf, hc]
    · by_cases hf : containsKey st.table (normalize f) = true
      · simp [hf, flush]
      · simp [hf]

theorem processLines_append (st : State) (a b : List Str) :
    processLines st (a ++ b) = (processLines st a).bind (fun s => processLines s b) := by
  induction a generalizing st with
  | nil => rfl
  | cons l a ih =>
    rw [List.cons_append, processLines, processLines]
    cases processLine st l with
    | none => rfl
    | some st1 => exact ih st1

theorem processLines_some (st : State) (lines : List Str) (h : ∀ l ∈ lines, l ≠ []) :
    ∃ st1, processLines st lines = some st1 := by
  induction lines generalizing st with
  | nil => exact ⟨st, rfl⟩
  | cons l rest ih =>
    obtain ⟨st1, h1, _⟩ := processLine_some st l (h l (by simp))
    rw [processLines, h1]
    exact ih st1 (fun x hx => h x (by simp [hx]))

theorem processLines_snoc (st : State) (a : List Str) (l : Str) (st1 : State)
    (h : processLines st a = some st1) :
    processLines st (a ++ [l]) = processLine st1 l := by
  rw [processLines_append, h]
  simp only [Option.bind, processLines]
  cases processLine st1 l <;> rfl


/-! ## The loop: `colCnt` and `colHeadings` -/

theorem addKeys_cons (hs : List Str) (k : Str) (ks : List Str) :
    addKeys hs (k :: ks) = addKeys (if k ∈ hs then hs else hs ++ [k]) ks := rfl

theorem multiKeys_cons (l : Str) (rest : List Str) :
    multiKeys (l :: rest) =
      if 1 < (splitLine l).length then keyOf l :: multiKeys rest else multiKeys rest := by
  unfold multiKeys
  by_cases h : 1 < (splitLine l).length <;> simp [List.filter_cons, h]

theorem maxFields_cons (l : Str) (rest : List Str) :
    maxFields (l :: rest) = max (splitLine l).length (maxFields rest) := rfl

/-- The loop never fails on lines that are not empty; `colCnt` becomes the largest field count
seen and `colHeadings` collects the keys of the lines with more than one field. -/
theorem processLines_spec (st : State) (lines : List Str) (h : ∀ l ∈ lines, l ≠ [])
    (h0 : 0 ≤ st.colCnt) :
    ∃ st1, processLines st lines = some st1 ∧
      st1.colCnt = max (maxFields lines : Int) st.colCnt ∧
      st1.colHeadings = addKeys st.colHeadings (multiKeys lines) := by
  induction lines generalizing st with
  | nil => exact ⟨st, rfl, by simp [maxFields, h0], rfl⟩
  | cons l rest ih =>
    obtain ⟨s1, h1, h2, h3, _⟩ := processLine_some st l (h l (by simp))
    obtain ⟨s2, g1, g2, g3⟩ := ih s1 (fun x hx => h x (by simp [hx])) (by rw [h3]; omega)
    refine ⟨s2, by rw [processLines, h1]; exact g1, ?_, ?_⟩
    · rw [g2, h3, maxFields_cons]
      simp only [Nat.cast_max]
      omega
    · rw [g3, h2, multiKeys_cons]
      by_cases hl : 1 < (splitLine l).length
      · by_cases hm : keyOf l ∈ st.colHeadings
        · simp [hl, hm, addKeys_cons]
        · simp [hl, hm, addKeys_cons]
      · simp [hl]

theorem maxFields_append (a b : List Str) :
    maxFields (a ++ b) = max (maxFields a) (maxFields b) := by
  induction a with
  | nil => simp [maxFields]
  | cons l a ih =>
    rw [List.cons_append, maxFields_cons, maxFields_cons, ih]
    omega

theorem multiKeys_append (a b : List Str) : multiKeys (a ++ b) = multiKeys a ++ multiKeys b := by
  simp [multiKeys]

theorem addKeys_append (hs a b : List Str) : addKeys hs (a ++ b) = addKeys (addKeys hs a) b := by
  simp [addKeys]

theorem addKeys_extends (hs ks : List Str) : hs <+: addKeys hs ks := by
  induction ks generalizing hs with
  | nil => exact ⟨[], List.append_nil _⟩
  | cons k ks ih =>
    rw [addKeys_cons]
    by_cases hk : k ∈ hs
    · simpa [hk] using ih hs
    · simp only [hk, if_false]
      have h1 : hs <+: hs ++ [k] := ⟨[k], rfl⟩
      exact h1.trans (ih _)

theorem mem_addKeys (hs ks : List Str) (x : Str) : x ∈ addKeys hs ks ↔ x ∈ hs ∨ x ∈ ks := by
  induction ks generalizing hs with
  | nil => simp [addKeys]
  | cons k ks ih =>
    rw [addKeys_cons, ih]
    by_cases hk : k ∈ hs
    · simp only [hk, if_true, List.mem_cons]
      constructor
      · rintro (h | h)
        · exact Or.inl h
        · exact Or.inr (Or.inr h)
      · rintro (h | h | h)
        · exact Or.inl h
        · exact Or.inl (h ▸ hk)
        · exact Or.inr h
    · simp only [hk, if_false, List.mem_append, List.mem_singleton, List.mem_cons]
      tauto

theorem nodup_addKeys (hs ks : List Str) (h : hs.Nodup) : (addKeys hs ks).Nodup := by
  induction ks generalizing hs with
  | nil => exact h
  | cons k ks ih =>
    rw [addKeys_cons]
    by_cases hk : k ∈ hs
    · simpa [hk] using ih hs h
    · simp only [hk, if_false]
      apply ih
      rw [List.nodup_append]
      refine ⟨h, List.nodup_singleton k, ?_⟩
      intro a ha hb
      simp at hb
      exact hk (hb ▸ ha)

theorem mem_multiKeys (lines : List Str) (k : Str) :
    k ∈ multiKeys lines ↔ ∃ l ∈ lines, 1 < (splitLine l).length ∧ keyOf l = k := by
  simp [multiKeys, and_assoc]


/-! ## The loop: the table and the block boundaries -/

theorem containsKey_nil (k : Str) : containsKey [] k = false := rfl

theorem containsKey_insert (t : Table) (k k1 : Str) (v : List Str) :
    containsKey (Table.insert t k v) k1 = true ↔ containsKey t k1 = true ∨ k = k1 := by
  unfold Table.insert
  by_cases hk : containsKey t k = true
  · rw [if_pos hk]
    constructor
    · exact Or.inl
    · rintro (h | h)
      · exact h
      · exact h ▸ hk
  · rw [if_neg hk]
    unfold containsKey
    rw [find_append_single]
    cases hf : Table.find t k1 with
    | some w => simp
    | none => by_cases e : k = k1 <;> simp [e]

theorem getD_eq_of_getElem? (lines : List Str) (k : Nat) (line : Str)
    (h : lines[k]? = some line) : lines.getD k [] = line := by
  simp [List.getD, h]

theorem take_succ_of_getElem? (lines : List Str) (k : Nat) (line : Str)
    (h : lines[k]? = some line) : lines.take (k + 1) = lines.take k ++ [line] := by
  rw [List.take_succ, h]
  rfl

theorem flushAt_eq (lines : List Str) (k : Nat) (st : State) (line : Str)
    (h1 : processLines State.init (lines.take k) = some st) (h2 : lines[k]? = some line) :
    flushAt lines k = flushes st line := by
  unfold flushAt
  rw [h1, h2]

theorem flushes_eq (st : State) (line : Str) (h : line ≠ []) :
    flushes st line = containsKey st.table (keyOf line) := by
  unfold flushes
  rw [rowKeyOf_eq line h]

theorem blockStart_le (lines : List Str) (k : Nat) : blockStart lines k ≤ k := by
  induction k with
  | zero => exact Nat.le_refl _
  | succ k ih =>
    rw [blockStart]
    split <;> omega

/-- After `k` lines the table holds exactly the keys of the lines of the open block, and these
keys are pairwise different. -/
theorem table_inv (lines : List Str) (h : ∀ l ∈ lines, l ≠ []) (k : Nat) (hk : k ≤ lines.length) :
    ∃ st, processLines State.init (lines.take k) = some st ∧
      (∀ key, containsKey st.table key = true ↔
        ∃ j, blockStart lines k ≤ j ∧ j < k ∧ keyAt lines j = key) ∧
      (∀ i j, blockStart lines k ≤ i → i < j → j < k → keyAt lines i ≠ keyAt lines j) := by
  induction k with
  | zero =>
    refine ⟨State.init, rfl, ?_, ?_⟩
    · intro key
      simp [State.init, containsKey_nil]
    · intro i j _ h2 h3
      omega
  | succ k ih =>
    obtain ⟨st, h1, h2, h3⟩ := ih (by omega)
    have hlt : k < lines.length := by omega
    have hget : lines[k]? = some lines[k] := List.getElem?_eq_getElem hlt
    have hne : lines[k] ≠ [] := h _ (List.getElem_mem hlt)
    have hkey : keyAt lines k = keyOf lines[k] := by
      unfold keyAt
      rw [getD_eq_of_getElem? lines k _ hget]
    obtain ⟨st1, g1, _, _, g4⟩ := processLine_some st lines[k] hne
    have hfl : flushAt lines k = containsKey st.table (keyAt lines k) := by
      rw [flushAt_eq lines k st _ h1 hget, flushes_eq _ _ hne, hkey]
    have hfl2 : flushes st lines[k] = flushAt lines k := (flushAt_eq lines k st _ h1 hget).symm
    refine ⟨st1, ?_, ?_, ?_⟩
    · rw [take_succ_of_getElem? lines k _ hget, processLines_snoc _ _ _ _ h1, g1]
    · intro key
      rw [g4, containsKey_insert, hfl2, ← hkey, blockStart]
      by_cases hf : flushAt lines k = true
      · simp only [if_pos hf, containsKey_nil]
        constructor
        · rintro (h0 | h0)
          · cases h0
          · exact ⟨k, Nat.le_refl _, by omega, h0⟩
        · rintro ⟨j, j1, j2, j3⟩
          have : j = k := by omega
          exact Or.inr (this ▸ j3)
      · simp only [if_neg hf, h2]
        constructor
        · rintro (⟨j, j1, j2, j3⟩ | h0)
          · exact ⟨j, j1, by omega, j3⟩
          · exact ⟨k, blockStart_le lines k, by omega, h0⟩
        · rintro ⟨j, j1, j2, j3⟩
          by_cases hj : j = k
          · exact Or.inr (hj ▸ j3)
          · exact Or.inl ⟨j, j1, by omega, j3⟩
    · intro i j i1 i2 i3
      rw [blockStart] at i1
      by_cases hf : flushAt lines k = true
      · simp only [if_pos hf] at i1
        omega
      · simp only [if_neg hf] at i1
        by_cases hj : j = k
        · subst hj
          intro heq
          apply hf
          rw [hfl, h2]
          exact ⟨i, i1, i2, heq⟩
        · exact h3 i j i1 i2 (by omega)


/-! ## Prefixes of the input -/

theorem not_hasDate_of_tails (s : Str)
    (h : s.tails.all (fun u => (matchAtoms dateRegEx u).isNone) = true) : ¬ HasDate s := by
  rw [hasDate_iff]
  rintro ⟨pre, u, hs, hu⟩
  have hmem : u ∈ s.tails := (List.mem_tails u s).2 ⟨pre, hs.symm⟩
  have := List.all_eq_true.1 h u hmem
  cases hm : matchAtoms dateRegEx u with
  | none => exact hu hm
  | some n => rw [hm] at this; cases this

/-- The state after a prefix of the input and the state after more of it. -/
theorem processLines_take (a b : List Str) (h : ∀ l ∈ a ++ b, l ≠ []) :
    ∃ sa sab, processLines State.init a = some sa ∧ processLines State.init (a ++ b) = some sab ∧
      sa.colHeadings = addKeys [] (multiKeys a) ∧ sa.colCnt = (maxFields a : Int) ∧
      sa.colHeadings <+: sab.colHeadings ∧ sa.colCnt ≤ sab.colCnt := by
  obtain ⟨sa, h1, h2, h3⟩ := processLines_spec State.init a
    (fun l hl => h l (List.mem_append_left _ hl)) (Int.le_refl _)
  obtain ⟨sab, g1, g2, g3⟩ := processLines_spec State.init (a ++ b) h (Int.le_refl _)
  have e0 : State.init.colCnt = 0 := rfl
  have e1 : State.init.colHeadings = [] := rfl
  rw [e0] at h2 g2
  rw [e1] at h3 g3
  refine ⟨sa, sab, h1, g1, h3, ?_, ?_, ?_⟩
  · rw [h2]; omega
  · rw [g3, h3, multiKeys_append, addKeys_append]
    exact addKeys_extends _ _
  · rw [g2, h2, maxFields_append]
    simp only [Nat.cast_max]
    omega

theorem take_succ_eq_append (lines : List Str) (N : Nat) :
    lines.take (N + 1) = lines.take N ++ (lines[N]?).toList := List.take_succ

theorem mem_of_mem_take_append (lines : List Str) (N : Nat) (l : Str)
    (hl : l ∈ lines.take N ++ (lines[N]?).toList) : l ∈ lines := by
  rw [← take_succ_eq_append] at hl
  exact List.mem_of_mem_take hl


/-! ## The claims -/

set_option maxRecDepth 100000

/-- C1: `printColumns` prints the column-major transpose of the table. For every heading list `H`,
table `T` and column count `c` the text written is the concatenation of the lines for the rows
`r = 1, 2, ..., c - 1` in increasing order (row 0 is never printed), these are `max (c - 1) 0`
lines, and the line for `r` is, for every heading `h` of `H` in order, `cell T h r` followed by
`", "`, and then a newline; `cell T h r` is element `r` of the vector stored under `h` when `h` is
a key of `T` and that vector has more than `r` elements, and the empty string otherwise. -/
theorem printColumns_transpose (H : List Str) (T : Table) (c : Int) :
    (printColumns H T c).1 =
        ((List.range' 1 (c - 1).toNat).map (fun r =>
          (H.map (fun h => cell T h r ++ ", ".toList)).flatten ++ "\n".toList)).flatten ∧
      ((List.range' 1 (c - 1).toNat).length : Int) = max (c - 1) 0 ∧
      ∀ h r, cell T h r =
        match T.find h with
        | some v => if r < v.length then v.getD r [] else []
        | none => [] := by
  refine ⟨printColumns_eq H T c, ?_, ?_⟩
  · rw [List.length_range']
    omega
  · intro h r
    unfold cell
    cases T.find h with
    | none => rfl
    | some v =>
      by_cases hr : r < v.length
      · simp [hr]
      · simp only [hr, if_false]
        exact List.getD_eq_default _ _ (by omega)

/-- C2: block boundaries. For an input of non-empty lines and a line index `k` (counted from 0),
reading line `k` takes the flush branch, which is the test `containsKey(table, rowKey)` in the
state reached after the lines before it, exactly when the key of line `k` equals the key of a line
`j` with `b ≤ j < k`, where `b` is the most recent earlier line that flushed (the first line when
there is none). The lines of the block that is open after line `k` have pairwise different keys. -/
theorem flush_iff_key_repeats (lines : List Str) (h : ∀ l ∈ lines, l ≠ []) (k : Nat)
    (hk : k < lines.length) :
    (flushAt lines k = true ↔
        ∃ j, blockStart lines k ≤ j ∧ j < k ∧ keyAt lines j = keyAt lines k) ∧
      (∀ i j, blockStart lines (k + 1) ≤ i → i < j → j ≤ k → keyAt lines i ≠ keyAt lines j) ∧
      ∃ st, processLines State.init (lines.take k) = some st ∧
        flushAt lines k = containsKey st.table (keyAt lines k) := by
  obtain ⟨st, h1, h2, _⟩ := table_inv lines h k (by omega)
  obtain ⟨_, _, _, g3⟩ := table_inv lines h (k + 1) (by omega)
  have hget : lines[k]? = some lines[k] := List.getElem?_eq_getElem hk
  have hne : lines[k] ≠ [] := h _ (List.getElem_mem hk)
  have hfl : flushAt lines k = containsKey st.table (keyAt lines k) := by
    rw [flushAt_eq lines k st _ h1 hget, flushes_eq _ _ hne]
    unfold keyAt
    rw [getD_eq_of_getElem? lines k _ hget]
  refine ⟨?_, ?_, st, h1, hfl⟩
  · rw [hfl, h2]
  · intro i j i1 i2 i3
    exact g3 i j i1 i2 (by omega)

/-- C2, at the input `a,1`, `b,2`, `a,3` and its third line. -/
theorem flush_iff_key_repeats_witness :
    (∀ l ∈ ["a,1".toList, "b,2".toList, "a,3".toList], l ≠ []) ∧
      2 < ["a,1".toList, "b,2".toList, "a,3".toList].length ∧
      ((flushAt ["a,1".toList, "b,2".toList, "a,3".toList] 2 = true ↔
          ∃ j, blockStart ["a,1".toList, "b,2".toList, "a,3".toList] 2 ≤ j ∧ j < 2 ∧
            keyAt ["a,1".toList, "b,2".toList, "a,3".toList] j =
              keyAt ["a,1".toList, "b,2".toList, "a,3".toList] 2) ∧
        (∀ i j, blockStart ["a,1".toList, "b,2".toList, "a,3".toList] (2 + 1) ≤ i → i < j →
          j ≤ 2 → keyAt ["a,1".toList, "b,2".toList, "a,3".toList] i ≠
            keyAt ["a,1".toList, "b,2".toList, "a,3".toList] j) ∧
        ∃ st, processLines State.init (["a,1".toList, "b,2".toList, "a,3".toList].take 2) =
            some st ∧
          flushAt ["a,1".toList, "b,2".toList, "a,3".toList] 2 =
            containsKey st.table (keyAt ["a,1".toList, "b,2".toList, "a,3".toList] 2)) :=
  ⟨by decide, by decide,
    flush_iff_key_repeats ["a,1".toList, "b,2".toList, "a,3".toList] (by decide) 2 (by decide)⟩

/-- C3: the example of the usage text. The run on the six lines ends with the headings `header1`,
`header2`, `header3 ` and `colCnt = 3`, the only line that flushes inside the loop is the fourth
one (index 3), and the output is the six lines given in the claim. -/
theorem usage_example_run :
    (run usageLines).map (fun st => (st.colHeadings, st.colCnt, st.out)) =
        some (["header1".toList, "header2".toList, "header3 ".toList], 3,
          ("header1,header2,header3 ,\n" ++ "row1Value1, row2Value1, row3Value1, \n" ++
            ", , row3Value2, \n" ++ "row4Value1, row5Value1, row6Value1, \n" ++
            "row4Value2, , row6Value2, \n" ++ "header1,header2,header3 ,\n").toList) ∧
      (List.range usageLines.length).filter (flushAt usageLines) = [3] := by
  constructor <;> decide

/-- C4, the code at the failing input: on the three lines of the comment at the head of the file
no key repeats, so the headings are never printed before the body; the output starts with the
body row ` row1Value1,  row2Value1,  row3Value1, ` and the heading line comes last only. -/
theorem header_comment_example_output :
    (run headerCommentLines).map
        (fun st => (st.out, decide (headingLine st.colHeadings <+: st.out))) =
      some ((" row1Value1,  row2Value1,  row3Value1, \n" ++ " row2Value2, ,  row3Value2, \n" ++
        "header1,header2,header3 ,\n").toList, false) := by
  decide

/-- C5, the claim fails: a line of 2147483647 commas reaches the default `maxSplit`, and the last
field returned is the unsplit rest of the line, which contains a comma. -/
theorem splitLine_capped_field_has_comma :
    ∃ f ∈ splitLine (List.replicate 2147483647 ','), ',' ∈ f := by
  have hc : intMax ≤ ((List.replicate 2147483647 ',').count ',' : Int) := by
    rw [List.count_replicate_self]
    exact Int.le_refl _
  obtain ⟨init, last, h1, h2⟩ := splitFrom_capped intMax intMax_pos [] _ hc
  refine ⟨last, ?_, h2⟩
  rw [splitLine_eq, h1]
  exact List.mem_append_right _ (List.mem_singleton_self _)

/-- C5 (amended): for a line with fewer than 2147483647 commas, `Split(s, ",")` returns fields
without a comma, returns no field exactly when the line is empty, and joining the fields with
`,` gives the line, without its last character when the line ends with a comma. -/
theorem splitLine_fields_below_cap (s : Str) (h : s.count ',' < 2147483647) :
    (∀ f ∈ splitLine s, ',' ∉ f) ∧ (splitLine s = [] ↔ s = []) ∧
      [','].intercalate (splitLine s) = if s.getLast? = some ',' then s.dropLast else s := by
  have hc : (s.count ',' : Int) < intMax := by
    unfold intMax
    omega
  refine ⟨?_, splitLine_eq_nil s, ?_⟩
  · rw [splitLine_eq]
    exact splitFrom_no_comma intMax [] s (by simp) hc
  · rw [splitLine_eq, splitFrom_intercalate intMax intMax_pos [] s (by simp)]
    simp [hc]

/-- C5 (amended), at the line `a,,b`, together with the three examples of the claim. -/
theorem splitLine_fields_below_cap_witness :
    "a,,b".toList.count ',' < 2147483647 ∧
      ((∀ f ∈ splitLine "a,,b".toList, ',' ∉ f) ∧ (splitLine "a,,b".toList = [] ↔ "a,,b".toList = []) ∧
        [','].intercalate (splitLine "a,,b".toList) =
          if "a,,b".toList.getLast? = some ',' then "a,,b".toList.dropLast else "a,,b".toList) ∧
      splitLine "a,,b".toList = ["a".toList, [], "b".toList] ∧
      splitLine "a,b,".toList = ["a".toList, "b".toList] ∧
      splitLine ",".toList = [[]] :=
  ⟨by decide, splitLine_fields_below_cap "a,,b".toList (by decide), by decide, by decide,
    by decide⟩

/-- C6, the claim fails: the line `,` splits into one empty field, the joined line is empty and
splits into no field at all. -/
theorem resplit_single_comma :
    (splitLine ",".toList).length = 1 ∧
      (splitLine ([','].intercalate (splitLine ",".toList))).length = 0 := by
  decide

/-- C6 (amended): splitting the comma-joined fields of `Split(s, ",")` again returns the same
fields, except that an empty last field is lost. -/
theorem resplit_joined_fields (s : Str) :
    splitLine ([','].intercalate (splitLine s)) =
      if (splitLine s).getLast? = some [] then (splitLine s).dropLast else splitLine s := by
  by_cases hc : (s.count ',' : Int) < intMax
  · have h1 : ∀ f ∈ splitLine s, ',' ∉ f := by
      rw [splitLine_eq]
      exact splitFrom_no_comma intMax [] s (by simp) hc
    rw [splitLine_eq ([','].intercalate (splitLine s))]
    exact splitFrom_roundtrip intMax (splitLine s) h1 (splitLine_length_le s)
  · obtain ⟨init, last, h1, h2⟩ := splitFrom_capped intMax intMax_pos [] s (by omega)
    have hj : [','].intercalate (splitLine s) = s := by
      rw [splitLine_eq, splitFrom_intercalate intMax intMax_pos [] s (by simp)]
      simp [hc]
    have hl : (splitLine s).getLast? ≠ some [] := by
      rw [splitLine_eq, h1]
      intro h0
      simp at h0
      rw [h0] at h2
      simp at h2
    rw [hj, if_neg hl]

/-- C7: stripping the dates is idempotent, and the normalised text has no substring of the form
digits+ `/` digits+ `/` digits+. -/
theorem normalize_idempotent (s : Str) :
    normalize (normalize s) = normalize s ∧ ¬ HasDate (normalize s) :=
  ⟨normalize_of_not_hasDate _ (not_hasDate_normalize s), not_hasDate_normalize s⟩


/-- C8: the key normaliser deletes characters of date matches only and never trims. The
normalised key is obtained from `s` by deleting characters (it is a sublist of `s`), none of the
characters that are neither a digit nor `/` is deleted (they are the same, in the same order,
before and after), a key without a substring digits+ `/` digits+ `/` digits+ is returned as it
is, and `header3 11/31/2011` becomes `header3 ` with the blank kept. -/
theorem normalize_deletes_only_dates (s : Str) :
    (normalize s).Sublist s ∧
      (normalize s).filter otherChar = s.filter otherChar ∧
      (¬ HasDate s → normalize s = s) ∧
      normalize "header3 11/31/2011".toList = "header3 ".toList :=
  ⟨replaceScan_sublist dateRegEx 0 s, normalize_filter s.length s (Nat.le_refl _),
    normalize_of_not_hasDate s, by decide⟩

/-- C8, at the key ` header3 ` with a blank on either side, which has no date. -/
theorem normalize_deletes_only_dates_witness :
    ¬ HasDate " header3 ".toList ∧ normalize " header3 ".toList = " header3 ".toList :=
  ⟨not_hasDate_of_tails _ (by decide),
    (normalize_deletes_only_dates " header3 ".toList).2.2.1 (not_hasDate_of_tails _ (by decide))⟩

/-- C9, the claim fails: after the single line `a`, which has one field, the key `a` is not
in `colHeadings`. -/
theorem single_field_key_not_heading :
    (processLines State.init ["a".toList]).map
        (fun st => (keyOf "a".toList, st.colHeadings)) = some ("a".toList, []) := by
  decide

/-- C9 (amended): after the first `N` lines of an input of non-empty lines, `colHeadings` has no
duplicates and contains exactly the keys of the lines read so far that have more than one field;
it is a prefix of `colHeadings` after one more line and of `colHeadings` after the whole input,
so the list never shrinks and the keys stand in the order of their first occurrence. -/
theorem colHeadings_multi_field_keys (lines : List Str) (h : ∀ l ∈ lines, l ≠ []) (N : Nat) :
    ∃ st st1 stAll, processLines State.init (lines.take N) = some st ∧
      processLines State.init (lines.take (N + 1)) = some st1 ∧
      processLines State.init lines = some stAll ∧
      st.colHeadings.Nodup ∧
      (∀ k, k ∈ st.colHeadings ↔ ∃ l ∈ lines.take N, 1 < (splitLine l).length ∧ keyOf l = k) ∧
      st.colHeadings <+: st1.colHeadings ∧ st.colHeadings <+: stAll.colHeadings := by
  have hall : ∀ l ∈ lines.take N ++ lines.drop N, l ≠ [] := by
    rw [List.take_append_drop]; exact h
  obtain ⟨st, stAll, h1, h2, h3, _, h5, _⟩ := processLines_take _ _ hall
  obtain ⟨st', st1, g1, g2, _, _, g5, _⟩ := processLines_take (lines.take N)
    (lines[N]?).toList (fun l hl => h l (mem_of_mem_take_append lines N l hl))
  rw [h1] at g1
  cases g1
  rw [List.take_append_drop] at h2
  rw [← take_succ_eq_append] at g2
  refine ⟨st, st1, stAll, h1, g2, h2, ?_, ?_, g5, h5⟩
  · rw [h3]
    exact nodup_addKeys _ _ List.nodup_nil
  · intro k
    rw [h3, mem_addKeys, mem_multiKeys]
    simp

/-- C9 (amended), at the lines `a`, `b,1`, `a,2` after two lines. -/
theorem colHeadings_multi_field_keys_witness :
    (∀ l ∈ ["a".toList, "b,1".toList, "a,2".toList], l ≠ []) ∧
      ∃ st st1 stAll,
        processLines State.init (["a".toList, "b,1".toList, "a,2".toList].take 2) = some st ∧
        processLines State.init (["a".toList, "b,1".toList, "a,2".toList].take (2 + 1)) =
          some st1 ∧
        processLines State.init ["a".toList, "b,1".toList, "a,2".toList] = some stAll ∧
        st.colHeadings.Nodup ∧
        (∀ k, k ∈ st.colHeadings ↔ ∃ l ∈ ["a".toList, "b,1".toList, "a,2".toList].take 2,
          1 < (splitLine l).length ∧ keyOf l = k) ∧
        st.colHeadings <+: st1.colHeadings ∧ st.colHeadings <+: stAll.colHeadings :=
  ⟨by decide, colHeadings_multi_field_keys ["a".toList, "b,1".toList, "a,2".toList]
    (by decide) 2⟩

/-- C10: after the first `N` lines of an input of non-empty lines, `colCnt` is the largest number
of fields `Split` returned for one of these lines, 0 for `N = 0`; one line later it is not
smaller, whether or not that line flushed. -/
theorem colCnt_eq_max_fields (lines : List Str) (h : ∀ l ∈ lines, l ≠ []) (N : Nat) :
    ∃ st st1, processLines State.init (lines.take N) = some st ∧
      processLines State.init (lines.take (N + 1)) = some st1 ∧
      st.colCnt = ((((lines.take N).map (fun l => (splitLine l).length)).foldr max 0 : Nat) : Int) ∧
      st.colCnt ≤ st1.colCnt := by
  obtain ⟨st, st1, g1, g2, _, g4, _, g6⟩ := processLines_take (lines.take N)
    (lines[N]?).toList (fun l hl => h l (mem_of_mem_take_append lines N l hl))
  rw [← take_succ_eq_append] at g2
  exact ⟨st, st1, g1, g2, g4, g6⟩

/-- C10, at the lines `a,1`, `a,2,3`, `b` after two lines. -/
theorem colCnt_eq_max_fields_witness :
    (∀ l ∈ ["a,1".toList, "a,2,3".toList, "b".toList], l ≠ []) ∧
      ∃ st st1, processLines State.init (["a,1".toList, "a,2,3".toList, "b".toList].take 2) =
          some st ∧
        processLines State.init (["a,1".toList, "a,2,3".toList, "b".toList].take (2 + 1)) =
          some st1 ∧
        st.colCnt = (((((["a,1".toList, "a,2,3".toList, "b".toList].take 2).map
          (fun l => (splitLine l).length)).foldr max 0 : Nat)) : Int) ∧
        st.colCnt ≤ st1.colCnt :=
  ⟨by decide, colCnt_eq_max_fields ["a,1".toList, "a,2,3".toList, "b".toList] (by decide) 2⟩


/-! ## `Split` with a maximum split count and without empty fields -/

/-- Below the cap the value of `maxSplit` does not matter. -/
theorem splitFrom_below_cap (ke : Bool) (n m : Int) (seg rest : Str)
    (hn : (rest.count ',' : Int) < n) (hm : (rest.count ',' : Int) < m) :
    splitFrom [','] ke n seg rest = splitFrom [','] ke m seg rest := by
  induction rest generalizing seg n m with
  | nil => rfl
  | cons c cs ih =>
    rw [splitFrom, splitFrom, comma_contains]
    by_cases hc : c = ','
    · subst hc
      simp only [List.count_cons_self, Nat.cast_add, Nat.cast_one] at hn hm
      have h1 : n - 1 > 0 := by omega
      have h2 : m - 1 > 0 := by omega
      simp only [decide_True, if_true, h1, h2]
      rw [ih (n - 1) (m - 1) [] (by omega) (by omega)]
    · simp only [hc, decide_False, Bool.false_eq_true, if_false]
      rw [List.count_cons_of_ne (Ne.symm hc)] at hn hm
      exact ih n m _ hn hm

/-- At the cap there are exactly `maxSplit` fields, and all but the last have no comma. -/
theorem splitFrom_capped_fields (n : Int) (hn : 1 ≤ n) (seg rest : Str) (hseg : ',' ∉ seg)
    (hcnt : n ≤ (rest.count ',' : Int)) :
    ((splitFrom [','] true n seg rest).length : Int) = n ∧
      ∀ f ∈ (splitFrom [','] true n seg rest).dropLast, ',' ∉ f := by
  induction rest generalizing seg n with
  | nil => simp at hcnt; omega
  | cons c cs ih =>
    rw [splitFrom, comma_contains]
    by_cases hc : c = ','
    · subst hc
      simp only [List.count_cons_self, Nat.cast_add, Nat.cast_one] at hcnt
      simp only [decide_True, if_true, Bool.true_or]
      by_cases hm : n - 1 > 0
      · obtain ⟨h1, h2⟩ := ih (n - 1) (by omega) [] (by simp) (by omega)
        have hne : splitFrom [','] true (n - 1) [] cs ≠ [] := by
          intro h0
          rw [h0] at h1
          simp at h1
          omega
        simp only [hm, if_true, List.singleton_append, List.length_cons, Nat.cast_add,
          Nat.cast_one]
        refine ⟨by omega, ?_⟩
        rw [List.dropLast_cons_of_ne_nil hne]
        intro f hf
        rcases List.mem_cons.1 hf with rfl | hf
        · exact hseg
        · exact h2 f hf
      · have h0 : n - 1 = 0 := by omega
        rw [if_neg hm, if_pos h0]
        refine ⟨?_, by simp⟩
        simp only [List.length_singleton, Nat.cast_one]
        omega
    · simp only [hc, decide_False, Bool.false_eq_true, if_false]
      rw [List.count_cons_of_ne (Ne.symm hc)] at hcnt
      exact ih n hn (seg ++ [c]) (by simp [hseg, Ne.symm hc]) hcnt

/-- Without `keepEmpty` the fields are those with `keepEmpty` that are not empty. -/
theorem splitFrom_drop_empty (d : List Char) (n : Int) (hn : 1 ≤ n) (seg rest : Str) :
    splitFrom d false n seg rest =
      (splitFrom d true n seg rest).filter (fun f => decide (f ≠ [])) := by
  induction rest generalizing seg n with
  | nil =>
    rw [splitFrom, splitFrom]
    by_cases hs : seg = [] <;> simp [hs]
  | cons c cs ih =>
    rw [splitFrom, splitFrom]
    by_cases hc : d.contains c = true
    · simp only [hc, if_true]
      by_cases hm : n - 1 > 0
      · simp only [hm, if_true, Bool.false_or, Bool.true_or, List.filter_append]
        rw [ih (n - 1) (by omega) []]
        by_cases hs : seg = [] <;> simp [hs]
      · have h0 : n - 1 = 0 := by omega
        simp [h0]
    · simp only [hc, Bool.false_eq_true, if_false]
      exact ih n hn _

/-! ## The table after one more line -/

theorem find_single (key k : Str) (v : List Str) :
    Table.find [(key, v)] k = if key = k then some v else none := by
  simp [Table.find]

/-- One line of input: the table afterwards, key by key. -/
theorem processLine_table (st : State) (line : Str) (h : line ≠ []) :
    ∃ st1, processLine st line = some st1 ∧
      containsKey (if flushes st line then [] else st.table) (keyOf line) = false ∧
      ∀ key, st1.table.find key =
        if key = keyOf line then some (splitLine line)
        else if flushes st line then none else st.table.find key := by
  obtain ⟨st1, h1, _, _, h4⟩ := processLine_some st line h
  have hfl := flushes_eq st line h
  refine ⟨st1, h1, ?_, ?_⟩
  · cases hf : flushes st line with
    | true => rfl
    | false =>
      rw [hf] at hfl
      simp only [Bool.false_eq_true, if_false]
      exact hfl.symm
  · intro key
    rw [h4]
    unfold Table.insert
    cases hf : flushes st line with
    | true =>
      simp only [if_true, containsKey_nil, Bool.false_eq_true, if_false, List.nil_append,
        find_single]
      by_cases hk : key = keyOf line
      · simp [hk]
      · simp [hk, Ne.symm hk]
    | false =>
      rw [hf] at hfl
      have hno : st.table.find (keyOf line) = none := by
        unfold containsKey at hfl
        cases hx : st.table.find (keyOf line) with
        | none => rfl
        | some v => rw [hx] at hfl; cases hfl
      simp only [Bool.false_eq_true, if_false, ← hfl, find_append_single]
      by_cases hk : key = keyOf line
      · subst hk
        simp [hno]
      · simp only [hk, if_false, Ne.symm hk]
        cases st.table.find key <;> rfl


theorem find_insertOrAssign (t : Table) (key k : Str) (v : List Str) :
    (Table.insertOrAssign t key v).find k = if k = key then some v else t.find k := by
  unfold Table.insertOrAssign
  rw [Table.find]
  by_cases hk : key = k
  · simp [hk]
  · simp only [hk, if_false, Ne.symm hk]
    induction t with
    | nil => rfl
    | cons p t ih =>
      obtain ⟨a, b⟩ := p
      by_cases ha : a = key
      · have hak : a ≠ k := fun e => hk (ha ▸ e)
        simp only [List.filter_cons, ha, ne_eq, not_true_eq_false, decide_False,
          Bool.false_eq_true, if_false, Table.find, hk]
        rw [← ha] at ih ⊢
        simpa [ha] using ih
      · simp only [List.filter_cons, ne_eq, ha, not_false_eq_true, decide_True, if_true,
          Table.find]
        by_cases hak : a = k
        · simp [hak]
        · simp only [hak, if_false]
          exact ih

/-- C11, the code at the failing input: an empty line splits into no field at all, so the read of
`fields[0]` that computes the key is out of bounds, and a run over an input with a blank line has
no defined result. A line whose first field is empty is processed like any other: `,1` alone gives
the body row `1, ` and the heading line `,`. -/
theorem blank_line_has_no_first_field :
    splitLine ([] : Str) = [] ∧ rowKeyOf ([] : Str) = none ∧
      (∀ st, (processLine st ([] : Str)).isNone = true) ∧
      (run ["a,1".toList, [], "b,2".toList]).isNone = true ∧
      (run [",1".toList]).map (fun st => st.out) = some "1, \n,\n".toList := by
  refine ⟨by decide, by decide, fun st => rfl, by decide, by decide⟩

/-- C12: on the empty input the output is a single newline, the heading line of the empty
`colHeadings`. -/
theorem empty_input_output : (run []).map (fun st => st.out) = some "\n".toList := by
  decide

/-- C13: the table after line `k` (from 0) of an input of non-empty lines. It maps the key of the
line to the fields of the line; when the line flushed this is the only entry, and otherwise the
other keys have the entries they had before. The key is never in the table at the insertion
point, so the table is the one an overwriting insert would give. -/
theorem table_after_line (lines : List Str) (h : ∀ l ∈ lines, l ≠ []) (k : Nat)
    (hk : k < lines.length) :
    ∃ st st1, processLines State.init (lines.take k) = some st ∧
      processLines State.init (lines.take (k + 1)) = some st1 ∧
      st1.table.find (keyAt lines k) = some (splitLine (lines.getD k [])) ∧
      (flushAt lines k = true → ∀ key, key ≠ keyAt lines k → st1.table.find key = none) ∧
      (flushAt lines k = false →
        ∀ key, key ≠ keyAt lines k → st1.table.find key = st.table.find key) ∧
      containsKey (if flushAt lines k then [] else st.table) (keyAt lines k) = false ∧
      ∀ key, st1.table.find key =
        (Table.insertOrAssign (if flushAt lines k then [] else st.table) (keyAt lines k)
          (splitLine (lines.getD k []))).find key := by
  have hall : ∀ l ∈ lines.take k, l ≠ [] := fun l hl => h l (List.mem_of_mem_take hl)
  obtain ⟨st, h1⟩ := processLines_some State.init (lines.take k) hall
  have hget : lines[k]? = some lines[k] := List.getElem?_eq_getElem hk
  have hne : lines[k] ≠ [] := h _ (List.getElem_mem hk)
  have hgd : lines.getD k [] = lines[k] := getD_eq_of_getElem? lines k _ hget
  have hkey : keyAt lines k = keyOf lines[k] := by
    unfold keyAt
    rw [hgd]
  obtain ⟨st1, g1, g2, g3⟩ := processLine_table st lines[k] hne
  have hfl : flushes st lines[k] = flushAt lines k := (flushAt_eq lines k st _ h1 hget).symm
  rw [hfl, ← hkey] at g2
  refine ⟨st, st1, h1, ?_, ?_, ?_, ?_, g2, ?_⟩
  · rw [take_succ_of_getElem? lines k _ hget, processLines_snoc _ _ _ _ h1, g1]
  · rw [g3, hkey, hgd]
    simp
  · intro hf key hkk
    rw [g3, hfl, hf, ← hkey]
    simp [hkk]
  · intro hf key hkk
    rw [g3, hfl, hf, ← hkey]
    simp [hkk]
  · intro key
    rw [g3, find_insertOrAssign, hfl, ← hkey, hgd]
    by_cases hkk : key = keyAt lines k
    · simp [hkk]
    · simp only [hkk, if_false]
      cases flushAt lines k <;> rfl

/-- C13, at the input `a,1`, `b,2`, `a,3` and its third line. -/
theorem table_after_line_witness :
    (∀ l ∈ ["a,1".toList, "b,2".toList, "a,3".toList], l ≠ []) ∧
      2 < ["a,1".toList, "b,2".toList, "a,3".toList].length ∧
      ∃ st st1,
        processLines State.init (["a,1".toList, "b,2".toList, "a,3".toList].take 2) = some st ∧
        processLines State.init (["a,1".toList, "b,2".toList, "a,3".toList].take (2 + 1)) =
          some st1 ∧
        st1.table.find (keyAt ["a,1".toList, "b,2".toList, "a,3".toList] 2) =
          some (splitLine (["a,1".toList, "b,2".toList, "a,3".toList].getD 2 [])) ∧
        (flushAt ["a,1".toList, "b,2".toList, "a,3".toList] 2 = true →
          ∀ key, key ≠ keyAt ["a,1".toList, "b,2".toList, "a,3".toList] 2 →
            st1.table.find key = none) ∧
        (flushAt ["a,1".toList, "b,2".toList, "a,3".toList] 2 = false →
          ∀ key, key ≠ keyAt ["a,1".toList, "b,2".toList, "a,3".toList] 2 →
            st1.table.find key = st.table.find key) ∧
        containsKey (if flushAt ["a,1".toList, "b,2".toList, "a,3".toList] 2 then []
          else st.table) (keyAt ["a,1".toList, "b,2".toList, "a,3".toList] 2) = false ∧
        ∀ key, st1.table.find key =
          (Table.insertOrAssign
            (if flushAt ["a,1".toList, "b,2".toList, "a,3".toList] 2 then [] else st.table)
            (keyAt ["a,1".toList, "b,2".toList, "a,3".toList] 2)
            (splitLine (["a,1".toList, "b,2".toList, "a,3".toList].getD 2 []))).find key :=
  ⟨by decide, by decide,
    table_after_line ["a,1".toList, "b,2".toList, "a,3".toList] (by decide) 2 (by decide)⟩

/-- C14: the maximum split count. For a count `n` with `1 ≤ n` (an `int`, so at most `INT_MAX`)
`Split(s, ",", true, n)` has at most `n` fields; with fewer than `n` commas in `s` it is
`Split(s, ",")`; with at least `n` commas it has exactly `n` fields, all but the last without a
comma, and joining them with `,` gives `s`, so the last field is the whole unsplit rest. -/
theorem Split_max_count (s : Str) (n : Int) (h1 : 1 ≤ n) (h2 : n ≤ intMax) :
    ((Split s [','] true n).length : Int) ≤ n ∧
      ((s.count ',' : Int) < n → Split s [','] true n = splitLine s) ∧
      (n ≤ (s.count ',' : Int) →
        ((Split s [','] true n).length : Int) = n ∧
        (∀ f ∈ (Split s [','] true n).dropLast, ',' ∉ f) ∧
        [','].intercalate (Split s [','] true n) = s) := by
  rw [Split_eq_splitFrom]
  refine ⟨splitFrom_length_le _ _ _ h1 _ _, ?_, ?_⟩
  · intro hc
    rw [splitLine_eq]
    exact splitFrom_below_cap true n intMax [] s hc (by omega)
  · intro hc
    obtain ⟨g1, g2⟩ := splitFrom_capped_fields n h1 [] s (by simp) hc
    refine ⟨g1, g2, ?_⟩
    rw [splitFrom_intercalate n h1 [] s (by simp)]
    have : ¬ ((s.count ',' : Int) < n) := by omega
    simp [this]

/-- C14, at the line `a,b,c,d` and the count 2, where the result is `a` and `b,c,d`. -/
theorem Split_max_count_witness :
    (1 : Int) ≤ 2 ∧ (2 : Int) ≤ intMax ∧
      (((Split "a,b,c,d".toList [','] true 2).length : Int) ≤ 2 ∧
        (("a,b,c,d".toList.count ',' : Int) < 2 →
          Split "a,b,c,d".toList [','] true 2 = splitLine "a,b,c,d".toList) ∧
        ((2 : Int) ≤ ("a,b,c,d".toList.count ',' : Int) →
          ((Split "a,b,c,d".toList [','] true 2).length : Int) = 2 ∧
          (∀ f ∈ (Split "a,b,c,d".toList [','] true 2).dropLast, ',' ∉ f) ∧
          [','].intercalate (Split "a,b,c,d".toList [','] true 2) = "a,b,c,d".toList)) ∧
      Split "a,b,c,d".toList [','] true 2 = ["a".toList, "b,c,d".toList] :=
  ⟨by decide, by decide, Split_max_count "a,b,c,d".toList 2 (by decide) (by decide), by decide⟩

/-- C15: dropping empties. For every string and every delimiter set, with the default maximum
split count, `Split(s, delims, false)` is `Split(s, delims, true)` without its empty fields, in
the same order, and it has no empty field. -/
theorem Split_drop_empty (s : Str) (d : List Char) :
    Split s d false intMax = (Split s d true intMax).filter (fun f => decide (f ≠ [])) ∧
      ∀ f ∈ Split s d false intMax, f ≠ [] := by
  have h : Split s d false intMax =
      (Split s d true intMax).filter (fun f => decide (f ≠ [])) := by
    rw [Split_eq_splitFrom, Split_eq_splitFrom]
    exact splitFrom_drop_empty d intMax intMax_pos [] s
  refine ⟨h, ?_⟩
  intro f hf
  rw [h] at hf
  simpa using (List.mem_filter.1 hf).2


/-! ## One line of input: what is printed -/

/-- One line of input: the flag `printColHeaders` and the text written. A flush writes the heading
line when the flag is still set, and then the body for the table and `colCnt` of the state before
the line, under the headings that already include the key of the line. -/
theorem processLine_out (st : State) (line : Str) (h : line ≠ []) :
    ∃ st1, processLine st line = some st1 ∧
      st1.printColHeaders = (st.printColHeaders && !flushes st line) ∧
      st1.out =
        if flushes st line then
          st.out ++ (if st.printColHeaders then headingLine st1.colHeadings else []) ++
            (printColumns st1.colHeadings st.table st.colCnt).1
        else st.out := by
  have hk : flushes st line = containsKey st.table (keyOf line) := flushes_eq st line h
  rw [hk]
  unfold processLine keyOf
  cases hs : splitLine line with
  | nil => exact absurd ((splitLine_eq_nil line).1 hs) h
  | cons f rest =>
    simp only [List.headD_cons]
    refine ⟨_, rfl, ?_, ?_⟩
    · by_cases hf : containsKey st.table (normalize f) = true
      · simp [hf, flush]
      · simp [hf]
    · by_cases hf : containsKey st.table (normalize f) = true
      · by_cases hp : st.printColHeaders = true
        · simp [hf, flush, hp]
        · simp [hf, flush, hp]
      · simp [hf]


/-! ## The loop, line by line -/

/-- The states before and after the line with index `k`. -/
theorem step_at (lines : List Str) (h : ∀ l ∈ lines, l ≠ []) (k : Nat) (hk : k < lines.length) :
    ∃ st st1, processLines State.init (lines.take k) = some st ∧
      processLines State.init (lines.take (k + 1)) = some st1 ∧
      processLine st (lines.getD k []) = some st1 ∧
      flushes st (lines.getD k []) = flushAt lines k ∧
      lines.getD k [] ≠ [] ∧ lines.getD k [] ∈ lines := by
  have hall : ∀ l ∈ lines.take k, l ≠ [] := fun l hl => h l (List.mem_of_mem_take hl)
  obtain ⟨st, h1⟩ := processLines_some State.init (lines.take k) hall
  have hget : lines[k]? = some lines[k] := List.getElem?_eq_getElem hk
  have hgd : lines.getD k [] = lines[k] := getD_eq_of_getElem? lines k _ hget
  have hmem : lines.getD k [] ∈ lines := hgd ▸ List.getElem_mem hk
  have hne : lines.getD k [] ≠ [] := h _ hmem
  obtain ⟨st1, g1, _⟩ := processLine_some st (lines.getD k []) hne
  refine ⟨st, st1, h1, ?_, g1, ?_, hne, hmem⟩
  · rw [take_succ_of_getElem? lines k _ hget, processLines_snoc _ _ _ _ h1, ← hgd, g1]
  · rw [hgd]
    exact (flushAt_eq lines k st _ h1 hget).symm

theorem blockStart_succ (lines : List Str) (k : Nat) :
    blockStart lines (k + 1) = if flushAt lines k then k else blockStart lines k := rfl

/-- Without a flush after line `i` the block that is open after `e` lines began at line `i` or
before. -/
theorem blockStart_le_of_open (lines : List Str) (i e : Nat) (hie : i < e)
    (hopen : ∀ j < e, i < j → flushAt lines j = false) : blockStart lines e ≤ i := by
  induction e with
  | zero => omega
  | succ e ih =>
    rw [blockStart_succ]
    by_cases hi : i = e
    · subst hi
      split
      · exact Nat.le_refl _
      · exact blockStart_le lines i
    · have hf : flushAt lines e = false := hopen e (by omega) (by omega)
      rw [hf]
      simp only [Bool.false_eq_true, if_false]
      exact ih (by omega) (fun j hj hij => hopen j (by omega) hij)

/-- After `k` lines the table maps the key of every line of the open block to its fields. -/
theorem table_values (lines : List Str) (h : ∀ l ∈ lines, l ≠ []) (k : Nat)
    (hk : k ≤ lines.length) :
    ∃ st, processLines State.init (lines.take k) = some st ∧
      ∀ j, blockStart lines k ≤ j → j < k →
        st.table.find (keyAt lines j) = some (splitLine (lines.getD j [])) := by
  induction k with
  | zero => exact ⟨State.init, rfl, fun j _ hj => absurd hj (Nat.not_lt_zero _)⟩
  | succ k ih =>
    obtain ⟨st, h1, h2⟩ := ih (by omega)
    obtain ⟨st', st1, g1, g2, g3, g4, g5, _⟩ := step_at lines h k (by omega)
    rw [h1] at g1
    cases g1
    obtain ⟨st1', e1, _, e3⟩ := processLine_table st (lines.getD k []) g5
    rw [g3] at e1
    cases e1
    obtain ⟨_, _, _, d3⟩ := table_inv lines h (k + 1) hk
    have hkey : keyAt lines k = keyOf (lines.getD k []) := rfl
    refine ⟨st1, g2, ?_⟩
    intro j j1 j2
    rw [e3, g4, ← hkey]
    by_cases hj : j = k
    · subst hj
      simp
    · have hne : keyAt lines j ≠ keyAt lines k := d3 j k j1 (by omega) (by omega)
      rw [blockStart_succ] at j1
      cases hf : flushAt lines k with
      | true =>
        rw [hf] at j1
        simp only [if_true] at j1
        omega
      | false =>
        rw [hf] at j1
        simp only [Bool.false_eq_true, if_false] at j1
        simp only [hne, if_false, Bool.false_eq_true]
        exact h2 j j1 (by omega)

theorem le_maxFields (lines : List Str) (l : Str) (hl : l ∈ lines) :
    (splitLine l).length ≤ maxFields lines := by
  induction lines with
  | nil => cases hl
  | cons a rest ih =>
    rw [maxFields_cons]
    rcases List.mem_cons.1 hl with rfl | hl
    · omega
    · have := ih hl
      omega

theorem getD_mem_take (lines : List Str) (i e : Nat) (hie : i < e) (he : e ≤ lines.length) :
    lines.getD i [] ∈ lines.take e := by
  have hi : i < lines.length := by omega
  have hget : lines[i]? = some lines[i] := List.getElem?_eq_getElem hi
  rw [getD_eq_of_getElem? lines i _ hget]
  have : i < (lines.take e).length := by
    rw [List.length_take]; omega
  have h2 : (lines.take e)[i] = lines[i] := by simp
  rw [← h2]
  exact List.getElem_mem this


/-- Every entry of the table after `k` lines is the key and the fields of one of these lines. -/
theorem table_entries (lines : List Str) (h : ∀ l ∈ lines, l ≠ []) (k : Nat)
    (hk : k ≤ lines.length) :
    ∃ st, processLines State.init (lines.take k) = some st ∧
      ∀ key v, st.table.find key = some v →
        ∃ j, j < k ∧ keyAt lines j = key ∧ v = splitLine (lines.getD j []) := by
  obtain ⟨st, h1, h2, _⟩ := table_inv lines h k hk
  obtain ⟨st', g1, g2⟩ := table_values lines h k hk
  rw [h1] at g1
  cases g1
  refine ⟨st, h1, ?_⟩
  intro key v hv
  have hc : containsKey st.table key = true := by
    unfold containsKey
    rw [hv]
    rfl
  obtain ⟨j, j1, j2, j3⟩ := (h2 key).1 hc
  have := g2 j j1 j2
  rw [j3, hv] at this
  exact ⟨j, j2, j3, Option.some.inj this⟩

/-- The state after `e` lines: `colCnt` covers every line read, and the heading registry has the
key of every line read that has more than one field. -/
theorem state_covers (lines : List Str) (h : ∀ l ∈ lines, l ≠ []) (e : Nat)
    (he : e ≤ lines.length) :
    ∃ st, processLines State.init (lines.take e) = some st ∧
      ∀ j, j < e → ((splitLine (lines.getD j [])).length : Int) ≤ st.colCnt ∧
        (1 < (splitLine (lines.getD j [])).length → keyAt lines j ∈ st.colHeadings) := by
  have hall : ∀ l ∈ lines.take e ++ lines.drop e, l ≠ [] := by
    rw [List.take_append_drop]; exact h
  obtain ⟨st, _, h1, _, h3, h4, _, _⟩ := processLines_take _ _ hall
  refine ⟨st, h1, ?_⟩
  intro j hj
  have hmem := getD_mem_take lines j e hj he
  constructor
  · rw [h4]
    exact_mod_cast le_maxFields _ _ hmem
  · intro hlen
    rw [h3, mem_addKeys, mem_multiKeys]
    exact Or.inr ⟨_, hmem, hlen, rfl⟩

theorem rowLine_split (H1 H2 : List Str) (k : Str) (t : Table) (r : Nat) :
    rowLine (H1 ++ k :: H2) t r =
      (H1.map (fun h => cell t h r ++ ", ".toList)).flatten ++
        (cell t k r ++ ", ".toList) ++
        (H2.map (fun h => cell t h r ++ ", ".toList)).flatten ++ "\n".toList := by
  simp [rowLine]

theorem finish_out (st : State) :
    (finish st).out = st.out ++ (printColumns st.colHeadings st.table st.colCnt).1 ++
      headingLine st.colHeadings ∧ (finish st).colHeadings = st.colHeadings :=
  ⟨rfl, rfl⟩

/-- The headings do not lose a key when one more line is read. -/
theorem processLine_headings (st st1 : State) (line : Str) (h : line ≠ [])
    (h1 : processLine st line = some st1) : ∀ k, k ∈ st.colHeadings → k ∈ st1.colHeadings := by
  obtain ⟨st1', g1, g2, _⟩ := processLine_some st line h
  rw [h1] at g1
  cases g1
  intro k hk
  rw [g2]
  split
  · exact List.mem_append_left _ hk
  · exact hk


/-- C16: no value is lost by the transpose. In an input of non-empty lines let line `i` have at
least two fields, and let the flush that ends its block be the one performed after the first `e`
lines (no line between `i` and `e` flushes; line `e` flushes, or `e` is the end of the input and
the flush is the final one). The state `st` before that flush has `colCnt` at least the length
of every field list in the table and has every table key with more than one field among its
headings. The flush writes, after the heading line if it is due, the rows `1 .. colCnt - 1` of
`st.table` under the headings `stN.colHeadings`; every `r` with `1 ≤ r` below the field count
of line `i` is one of these rows, and in that row the cell at the place of the key of line `i`
is field `r` of line `i`. -/
theorem no_value_lost (lines : List Str) (h : ∀ l ∈ lines, l ≠ []) (i e : Nat) (hie : i < e)
    (he : e ≤ lines.length) (hm : 2 ≤ (splitLine (lines.getD i [])).length)
    (hopen : ∀ j < e, i < j → flushAt lines j = false)
    (hend : e < lines.length → flushAt lines e = true) :
    ∃ st stN H1 H2, processLines State.init (lines.take e) = some st ∧
      (e < lines.length → processLines State.init (lines.take (e + 1)) = some stN) ∧
      (e = lines.length → stN = finish st) ∧
      (∀ key v, st.table.find key = some v →
        (v.length : Int) ≤ st.colCnt ∧ (1 < v.length → key ∈ st.colHeadings)) ∧
      stN.colHeadings = H1 ++ keyAt lines i :: H2 ∧
      stN.out =
        st.out ++
          (if e < lines.length ∧ st.printColHeaders = true then headingLine stN.colHeadings
            else []) ++
          ((List.range' 1 (st.colCnt - 1).toNat).map
            (fun r => rowLine stN.colHeadings st.table r)).flatten ++
          (if e < lines.length then [] else headingLine stN.colHeadings) ∧
      ∀ r, 1 ≤ r → r < (splitLine (lines.getD i [])).length →
        r ∈ List.range' 1 (st.colCnt - 1).toNat ∧
        rowLine stN.colHeadings st.table r =
          (H1.map (fun h => cell st.table h r ++ ", ".toList)).flatten ++
            ((splitLine (lines.getD i [])).getD r [] ++ ", ".toList) ++
            (H2.map (fun h => cell st.table h r ++ ", ".toList)).flatten ++ "\n".toList := by
  obtain ⟨st, h1, hcov⟩ := state_covers lines h e he
  obtain ⟨st', a1, hent⟩ := table_entries lines h e he
  rw [h1] at a1; cases a1
  obtain ⟨st', a1, hval⟩ := table_values lines h e he
  rw [h1] at a1; cases a1
  have hbs : blockStart lines e ≤ i := blockStart_le_of_open lines i e hie hopen
  have hfind := hval i hbs hie
  obtain ⟨hcnt, hhead⟩ := hcov i hie
  have hkin : keyAt lines i ∈ st.colHeadings := hhead (by omega)
  have hinv : ∀ key v, st.table.find key = some v →
      (v.length : Int) ≤ st.colCnt ∧ (1 < v.length → key ∈ st.colHeadings) := by
    intro key v hv
    obtain ⟨j, j1, j2, j3⟩ := hent key v hv
    obtain ⟨c1, c2⟩ := hcov j j1
    rw [j3, ← j2]
    exact ⟨c1, c2⟩
  have hrows : ∀ (H1 H2 : List Str) r, 1 ≤ r → r < (splitLine (lines.getD i [])).length →
      r ∈ List.range' 1 (st.colCnt - 1).toNat ∧
      rowLine (H1 ++ keyAt lines i :: H2) st.table r =
        (H1.map (fun h => cell st.table h r ++ ", ".toList)).flatten ++
          ((splitLine (lines.getD i [])).getD r [] ++ ", ".toList) ++
          (H2.map (fun h => cell st.table h r ++ ", ".toList)).flatten ++ "\n".toList := by
    intro H1 H2 r r1 r2
    constructor
    · rw [List.mem_range'_1]
      omega
    · rw [rowLine_split]
      have : cell st.table (keyAt lines i) r = (splitLine (lines.getD i [])).getD r [] := by
        unfold cell
        rw [hfind]
      rw [this]
  by_cases hlt : e < lines.length
  · obtain ⟨st', st1, g1, g2, g3, g4, g5, _⟩ := step_at lines h e hlt
    rw [h1] at g1; cases g1
    obtain ⟨st1', o1, _, o3⟩ := processLine_out st (lines.getD e []) g5
    rw [g3] at o1; cases o1
    have hk1 : keyAt lines i ∈ st1.colHeadings :=
      processLine_headings st st1 _ g5 g3 _ hkin
    obtain ⟨H1, H2, hH⟩ := List.append_of_mem hk1
    refine ⟨st, st1, H1, H2, h1, fun _ => g2, fun heq => absurd heq (by omega), hinv, hH, ?_, ?_⟩
    · rw [o3, g4, hend hlt, printColumns_eq]
      by_cases hp : st.printColHeaders = true
      · simp [hlt, hp]
      · simp [hlt, hp]
    · rw [hH]
      exact hrows H1 H2
  · obtain ⟨H1, H2, hH⟩ := List.append_of_mem hkin
    refine ⟨st, finish st, H1, H2, h1, fun hc => absurd hc hlt, fun _ => rfl, hinv, ?_, ?_, ?_⟩
    · rw [(finish_out st).2, hH]
    · rw [(finish_out st).1, (finish_out st).2, printColumns_eq]
      simp [hlt]
    · rw [(finish_out st).2, hH]
      exact hrows H1 H2


/-! ## The heading registry as a list without duplicates -/

theorem addKeys_eq (hs ks : List Str) :
    addKeys hs ks = hs ++ (firstOccurrences ks).filter (fun x => decide (x ∉ hs)) := by
  induction ks generalizing hs with
  | nil => simp [addKeys, firstOccurrences]
  | cons k ks ih =>
    rw [addKeys_cons, firstOccurrences]
    by_cases hk : k ∈ hs
    · simp only [hk, if_true]
      rw [ih hs, List.filter_cons]
      simp only [hk, not_true_eq_false, decide_False, Bool.false_eq_true, if_false,
        List.filter_filter]
      congr 1
      apply List.filter_congr
      intro x _
      by_cases hx : x ∈ hs
      · simp [hx]
      · have : x ≠ k := fun e => hx (e ▸ hk)
        simp [hx, this]
    · simp only [hk, if_false]
      rw [ih (hs ++ [k]), List.filter_cons]
      simp only [hk, not_false_eq_true, decide_True, if_true, List.filter_filter,
        List.append_assoc, List.singleton_append]
      congr 2
      apply List.filter_congr
      intro x _
      by_cases hx : x ∈ hs <;> by_cases hxk : x = k <;> simp [hx, hxk]

theorem addKeys_nil (ks : List Str) : addKeys [] ks = firstOccurrences ks := by
  rw [addKeys_eq]
  simp

/-! ## The number of rows of a flush -/

theorem processLine_nil (st : State) : processLine st [] = none := rfl

theorem processLines_ne_nil (st st1 : State) (lines : List Str)
    (h : processLines st lines = some st1) : ∀ l ∈ lines, l ≠ [] := by
  induction lines generalizing st with
  | nil => intro l hl; cases hl
  | cons a rest ih =>
    rw [processLines] at h
    cases hp : processLine st a with
    | none => rw [hp] at h; cases h
    | some s1 =>
      rw [hp] at h
      intro l hl
      rcases List.mem_cons.1 hl with rfl | hl
      · intro h0
        rw [h0, processLine_nil] at hp
        cases hp
      · exact ih s1 h l hl

/-- A flush prints one row less than the largest field count read so far. -/
theorem flushRowCount_eq (lines : List Str) (e rows : Nat)
    (h : flushRowCount lines e = some rows) : rows = maxFields (lines.take e) - 1 := by
  unfold flushRowCount at h
  cases hp : processLines State.init (lines.take e) with
  | none => rw [hp] at h; cases h
  | some st =>
    rw [hp] at h
    have hne := processLines_ne_nil _ _ _ hp
    obtain ⟨st', g1, g2, _⟩ := processLines_spec State.init (lines.take e) hne (Int.le_refl _)
    rw [hp] at g1
    cases g1
    have e0 : State.init.colCnt = 0 := rfl
    rw [e0] at g2
    simp only [Option.map_some', Option.some.injEq, List.length_range'] at h
    rw [← h, g2]
    omega

/-! ## The flag `printColHeaders` -/

/-- Up to the first flush nothing is written and the flag is still set. -/
theorem before_first_flush (lines : List Str) (h : ∀ l ∈ lines, l ≠ []) (k : Nat)
    (hk : k ≤ lines.length) (hno : ∀ j < k, flushAt lines j = false) :
    ∃ st, processLines State.init (lines.take k) = some st ∧ st.out = [] ∧
      st.printColHeaders = true := by
  induction k with
  | zero => exact ⟨State.init, rfl, rfl, rfl⟩
  | succ k ih =>
    obtain ⟨st, h1, h2, h3⟩ := ih (by omega) (fun j hj => hno j (by omega))
    obtain ⟨st', st1, g1, g2, g3, g4, g5, _⟩ := step_at lines h k (by omega)
    rw [h1] at g1; cases g1
    obtain ⟨st1', o1, o2, o3⟩ := processLine_out st (lines.getD k []) g5
    rw [g3] at o1; cases o1
    have hf : flushAt lines k = false := hno k (by omega)
    rw [g4, hf] at o2 o3
    refine ⟨st1, g2, ?_, ?_⟩
    · rw [o3]; simpa using h2
    · rw [o2, h3]; rfl

/-- After the first flush the flag is cleared. -/
theorem after_first_flush (lines : List Str) (h : ∀ l ∈ lines, l ≠ []) (k : Nat)
    (hk : k ≤ lines.length) (hex : ∃ j < k, flushAt lines j = true) :
    ∃ st, processLines State.init (lines.take k) = some st ∧ st.printColHeaders = false := by
  induction k with
  | zero =>
    obtain ⟨j, hj, _⟩ := hex
    omega
  | succ k ih =>
    obtain ⟨st, st1, g1, g2, g3, g4, g5, _⟩ := step_at lines h k (by omega)
    obtain ⟨st1', o1, o2, _⟩ := processLine_out st (lines.getD k []) g5
    rw [g3] at o1; cases o1
    refine ⟨st1, g2, ?_⟩
    rw [o2, g4]
    cases hf : flushAt lines k with
    | true => simp
    | false =>
      obtain ⟨j, hj, hjf⟩ := hex
      have hjk : j < k := by
        by_cases e : j = k
        · rw [e, hf] at hjf; cases hjf
        · omega
      obtain ⟨st', a1, a2⟩ := ih (by omega) ⟨j, hjk, hjf⟩
      rw [g1] at a1; cases a1
      rw [a2]; rfl


/-- C17: the heading registry. After the first `N` lines of an input of non-empty lines,
`colHeadings` is the list of the keys of the lines read that have more than one field, with
duplicates removed and the first occurrence kept. It has no duplicates, it is an initial segment
of `colHeadings` after the whole input, and the key of a line with a single field is a heading
only if a line read with the same key has more than one field. -/
theorem colHeadings_first_occurrences (lines : List Str) (h : ∀ l ∈ lines, l ≠ []) (N : Nat) :
    ∃ st stAll, processLines State.init (lines.take N) = some st ∧
      processLines State.init lines = some stAll ∧
      st.colHeadings = firstOccurrences
        (((lines.take N).filter (fun l => decide (1 < (splitLine l).length))).map keyOf) ∧
      st.colHeadings.Nodup ∧
      st.colHeadings <+: stAll.colHeadings ∧
      ∀ l ∈ lines.take N, (splitLine l).length = 1 → keyOf l ∈ st.colHeadings →
        ∃ l2 ∈ lines.take N, 1 < (splitLine l2).length ∧ keyOf l2 = keyOf l := by
  have hall : ∀ l ∈ lines.take N ++ lines.drop N, l ≠ [] := by
    rw [List.take_append_drop]; exact h
  obtain ⟨st, stAll, h1, h2, h3, _, h5, _⟩ := processLines_take _ _ hall
  rw [List.take_append_drop] at h2
  refine ⟨st, stAll, h1, h2, ?_, ?_, h5, ?_⟩
  · rw [h3, addKeys_nil]
    rfl
  · rw [h3]
    exact nodup_addKeys _ _ List.nodup_nil
  · intro l _ _ hl
    rw [h3, mem_addKeys, mem_multiKeys] at hl
    rcases hl with hl | hl
    · cases hl
    · exact hl

/-- C17, at the lines `a`, `b,1`, `a,2`, `b,3` after three lines, where the headings are `b`
and `a`. -/
theorem colHeadings_first_occurrences_witness :
    (∀ l ∈ ["a".toList, "b,1".toList, "a,2".toList, "b,3".toList], l ≠ []) ∧
      (∃ st stAll,
        processLines State.init (["a".toList, "b,1".toList, "a,2".toList, "b,3".toList].take 3) =
          some st ∧
        processLines State.init ["a".toList, "b,1".toList, "a,2".toList, "b,3".toList] =
          some stAll ∧
        st.colHeadings = firstOccurrences
          (((["a".toList, "b,1".toList, "a,2".toList, "b,3".toList].take 3).filter
            (fun l => decide (1 < (splitLine l).length))).map keyOf) ∧
        st.colHeadings.Nodup ∧
        st.colHeadings <+: stAll.colHeadings ∧
        ∀ l ∈ ["a".toList, "b,1".toList, "a,2".toList, "b,3".toList].take 3,
          (splitLine l).length = 1 → keyOf l ∈ st.colHeadings →
          ∃ l2 ∈ ["a".toList, "b,1".toList, "a,2".toList, "b,3".toList].take 3,
            1 < (splitLine l2).length ∧ keyOf l2 = keyOf l) ∧
      firstOccurrences
        (((["a".toList, "b,1".toList, "a,2".toList, "b,3".toList].take 3).filter
          (fun l => decide (1 < (splitLine l).length))).map keyOf) = ["b".toList, "a".toList] :=
  ⟨by decide,
    colHeadings_first_occurrences ["a".toList, "b,1".toList, "a,2".toList, "b,3".toList]
      (by decide) 3,
    by decide⟩

/-- C18, the claim fails: no input has a flush that prints more body rows than the largest field
count among the lines read up to and including the last line of its block, less one. The flush
after the first `e` lines uses the `colCnt` of these lines only; a line of a later block has not
been counted yet. -/
theorem no_surplus_rows_from_later_lines :
    ¬ ∃ (lines : List Str) (e rows : Nat), e ≤ lines.length ∧
      flushRowCount lines e = some rows ∧
      ((lines.take e).map (fun l => (splitLine l).length)).foldr max 0 - 1 < rows := by
  rintro ⟨lines, e, rows, _, h1, h2⟩
  have := flushRowCount_eq lines e rows h1
  unfold maxFields at this
  omega

/-- C18 (amended): every flush prints one row less than the largest field count among the lines
read up to and including the last line of its block (no row when that count is 0), and a later
block is padded by an earlier, wider one: on the lines `a,1,2`, `a,3` the final flush prints 2
rows though its block, the line `a,3` alone, has 2 fields. -/
theorem later_block_padded_by_earlier :
    (∀ (lines : List Str) (e rows : Nat), flushRowCount lines e = some rows →
        rows = ((lines.take e).map (fun l => (splitLine l).length)).foldr max 0 - 1) ∧
      blockStart ["a,1,2".toList, "a,3".toList] 2 = 1 ∧
      flushRowCount ["a,1,2".toList, "a,3".toList] 2 = some 2 ∧
      (((["a,1,2".toList, "a,3".toList].take 2).drop 1).map
        (fun l => (splitLine l).length)).foldr max 0 - 1 = 1 ∧
      (run ["a,1,2".toList, "a,3".toList]).map (fun st => st.out) =
        some "a,\n1, \n2, \n3, \n, \na,\n".toList := by
  refine ⟨fun lines e rows h => flushRowCount_eq lines e rows h, by decide, by decide, by decide,
    by decide⟩

/-- C19: the header can be narrower than the data it heads. In an input of non-empty lines a line
that does not flush writes nothing; the first line that flushes writes, as the first text of the
output, the heading line of the headings known then and the body; a later line that flushes writes
a body only, so the header is written at most once; after the loop the last body and the footer
with the final headings are written. The headings of the header are an initial segment of the
final headings, and a shorter one when a later line with more than one field has a key that no
line with more than one field had up to the flush. -/
theorem header_narrower_than_footer (lines : List Str) (h : ∀ l ∈ lines, l ≠ []) :
    ∃ stAll, processLines State.init lines = some stAll ∧
      (finish stAll).out =
        stAll.out ++ (printColumns stAll.colHeadings stAll.table stAll.colCnt).1 ++
          headingLine stAll.colHeadings ∧
      ∀ k, k < lines.length →
        ∃ st st1, processLines State.init (lines.take k) = some st ∧
          processLines State.init (lines.take (k + 1)) = some st1 ∧
          st1.colHeadings <+: stAll.colHeadings ∧
          (flushAt lines k = false → st1.out = st.out) ∧
          (flushAt lines k = true → (∀ j < k, flushAt lines j = false) →
            st.out = [] ∧
            st1.out = headingLine st1.colHeadings ++
              (printColumns st1.colHeadings st.table st.colCnt).1) ∧
          (flushAt lines k = true → (∃ j < k, flushAt lines j = true) →
            st1.out = st.out ++ (printColumns st1.colHeadings st.table st.colCnt).1) ∧
          (flushAt lines k = true →
            (∃ j < lines.length, k < j ∧ 1 < (splitLine (lines.getD j [])).length ∧
              ∀ i ≤ k, 1 < (splitLine (lines.getD i [])).length →
                keyAt lines i ≠ keyAt lines j) →
            st1.colHeadings.length < stAll.colHeadings.length) := by
  obtain ⟨stAll, hA, hcov⟩ := state_covers lines h lines.length (Nat.le_refl _)
  rw [List.take_length] at hA
  refine ⟨stAll, hA, (finish_out stAll).1, ?_⟩
  intro k hk
  obtain ⟨st, st1, g1, g2, g3, g4, g5, _⟩ := step_at lines h k hk
  obtain ⟨st1', o1, _, o3⟩ := processLine_out st (lines.getD k []) g5
  rw [g3] at o1; cases o1
  rw [g4] at o3
  have hall : ∀ l ∈ lines.take (k + 1) ++ lines.drop (k + 1), l ≠ [] := by
    rw [List.take_append_drop]; exact h
  obtain ⟨sa, sab, p1, p2, p3, _, p5, _⟩ := processLines_take _ _ hall
  rw [List.take_append_drop, hA] at p2
  rw [g2] at p1
  cases p1; cases p2
  refine ⟨st, st1, g1, g2, p5, ?_, ?_, ?_, ?_⟩
  · intro hf
    rw [o3, hf]
    rfl
  · intro hf hno
    obtain ⟨st', b1, b2, b3⟩ := before_first_flush lines h k (by omega) hno
    rw [g1] at b1; cases b1
    refine ⟨b2, ?_⟩
    rw [o3, hf, b2, b3]
    simp
  · intro hf hex
    obtain ⟨st', b1, b2⟩ := after_first_flush lines h k (by omega) hex
    rw [g1] at b1; cases b1
    rw [o3, hf, b2]
    simp
  · rintro _ ⟨j, j1, j2, j3, j4⟩
    obtain ⟨t, ht⟩ := p5
    have hjin : keyAt lines j ∈ stAll.colHeadings := (hcov j j1).2 j3
    have hjout : keyAt lines j ∉ st1.colHeadings := by
      rw [p3, mem_addKeys, mem_multiKeys]
      rintro (hc | ⟨l, hl, hl1, hl2⟩)
      · cases hc
      · obtain ⟨i, hi, rfl⟩ := List.getElem_of_mem hl
        rw [List.length_take] at hi
        have hi2 : i < lines.length := by omega
        have hgi : lines.getD i [] = (lines.take (k + 1))[i] := by
          rw [getD_eq_of_getElem? lines i lines[i] (List.getElem?_eq_getElem hi2)]
          simp
        rw [← hgi] at hl1 hl2
        exact j4 i (by omega) hl1 hl2
    rw [← ht] at hjin ⊢
    rcases List.mem_append.1 hjin with hin | hin
    · exact absurd hin hjout
    · cases t with
      | nil => cases hin
      | cons x xs => simp


/-- C16, at the lines `a,1,2`, `b,3`, `a,4`: the block of the first line is ended by the flush of
the third line. -/
theorem no_value_lost_witness :
    (∀ l ∈ valueLines, l ≠ []) ∧ 0 < 2 ∧ 2 ≤ valueLines.length ∧
      2 ≤ (splitLine (valueLines.getD 0 [])).length ∧
      (∀ j < 2, 0 < j → flushAt valueLines j = false) ∧
      (2 < valueLines.length → flushAt valueLines 2 = true) ∧
      (run valueLines).map (fun st => st.out) =
        some "a,b,\n1, 3, \n2, , \n4, , \n, , \na,b,\n".toList ∧
      (∃ st stN H1 H2, processLines State.init (valueLines.take 2) = some st ∧
        (2 < valueLines.length → processLines State.init (valueLines.take (2 + 1)) = some stN) ∧
        (2 = valueLines.length → stN = finish st) ∧
        (∀ key v, st.table.find key = some v →
          (v.length : Int) ≤ st.colCnt ∧ (1 < v.length → key ∈ st.colHeadings)) ∧
        stN.colHeadings = H1 ++ keyAt valueLines 0 :: H2 ∧
        stN.out =
          st.out ++
            (if 2 < valueLines.length ∧ st.printColHeaders = true then headingLine stN.colHeadings
              else []) ++
            ((List.range' 1 (st.colCnt - 1).toNat).map
              (fun r => rowLine stN.colHeadings st.table r)).flatten ++
            (if 2 < valueLines.length then [] else headingLine stN.colHeadings) ∧
        ∀ r, 1 ≤ r → r < (splitLine (valueLines.getD 0 [])).length →
          r ∈ List.range' 1 (st.colCnt - 1).toNat ∧
          rowLine stN.colHeadings st.table r =
            (H1.map (fun h => cell st.table h r ++ ", ".toList)).flatten ++
              ((splitLine (valueLines.getD 0 [])).getD r [] ++ ", ".toList) ++
              (H2.map (fun h => cell st.table h r ++ ", ".toList)).flatten ++ "\n".toList) :=
  ⟨by decide, by decide, by decide, by decide, by decide, by decide, by decide,
    no_value_lost valueLines (by decide) 0 2 (by decide) (by decide) (by decide) (by decide)
      (by decide)⟩

/-- C19, at the lines `a,1`, `a,2`, `b,3`: the header is `a,`, the body rows are `1, ` and
`2, 3, `, and the footer is `a,b,`. -/
theorem header_narrower_than_footer_witness :
    (∀ l ∈ narrowHeaderLines, l ≠ []) ∧
      (run narrowHeaderLines).map (fun st => st.out) = some "a,\n1, \n2, 3, \na,b,\n".toList ∧
      (∃ stAll, processLines State.init narrowHeaderLines = some stAll ∧
        (finish stAll).out =
          stAll.out ++ (printColumns stAll.colHeadings stAll.table stAll.colCnt).1 ++
            headingLine stAll.colHeadings ∧
        ∀ k, k < narrowHeaderLines.length →
          ∃ st st1, processLines State.init (narrowHeaderLines.take k) = some st ∧
            processLines State.init (narrowHeaderLines.take (k + 1)) = some st1 ∧
            st1.colHeadings <+: stAll.colHeadings ∧
            (flushAt narrowHeaderLines k = false → st1.out = st.out) ∧
            (flushAt narrowHeaderLines k = true → (∀ j < k, flushAt narrowHeaderLines j = false) →
              st.out = [] ∧
              st1.out = headingLine st1.colHeadings ++
                (printColumns st1.colHeadings st.table st.colCnt).1) ∧
            (flushAt narrowHeaderLines k = true → (∃ j < k, flushAt narrowHeaderLines j = true) →
              st1.out = st.out ++ (printColumns st1.colHeadings st.table st.colCnt).1) ∧
            (flushAt narrowHeaderLines k = true →
              (∃ j < narrowHeaderLines.length, k < j ∧ 1 < (splitLine (narrowHeaderLines.getD j [])).length ∧
                ∀ i ≤ k, 1 < (splitLine (narrowHeaderLines.getD i [])).length →
                  keyAt narrowHeaderLines i ≠ keyAt narrowHeaderLines j) →
              st1.colHeadings.length < stAll.colHeadings.length)) :=
  ⟨by decide, by decide, header_narrower_than_footer narrowHeaderLines (by decide)⟩

end Transpose
